import Mathlib

/-!
Shallow embedding of the core diff engine of `src/diff_utility/diff.py`
(`normalize_line`, `lines_equal_norm`, `_tokenize`, `annotate_changes`,
`_format_file_line`, `diff_lines`) together with the parts of Python's
`difflib.SequenceMatcher` that those functions call
(`find_longest_match`, `get_matching_blocks`, `get_opcodes`).

Lines and tokens are modelled as `List Char`; the whitespace class is the
ASCII part of Python's `\s` (characters outside this set are outside the
modelled character universe).  All recursion is structural (explicit fuel
where the Python original recurses on shrinking index ranges), so every
definition evaluates by kernel reduction.
-/

namespace DiffUtility

/-- A line (or token) of text, modelled as its list of characters. -/
abbrev Str := List Char

/-- ASCII whitespace, the characters matched by Python's regex class `\s`
restricted to ASCII: space, tab, newline, carriage return, vertical tab
and form feed. -/
def isWs (c : Char) : Bool :=
  c = ' ' || c = '\t' || c = '\n' || c = '\r' || c = '\x0b' || c = '\x0c'

/-- State-passing core of `normalize_line`: the boolean records whether the
previous character was whitespace (i.e. whether we are inside a whitespace
run whose single replacement space has already been emitted). -/
def normAux : Bool → Str → Str
  | _, [] => []
  | inWs, c :: cs =>
    if isWs c then
      if inWs then normAux true cs else ' ' :: normAux true cs
    else
      c :: normAux false cs

/-- `normalize_line(line)`: `re.sub(r"\s+", " ", line)` — every maximal run
of whitespace characters is replaced by a single space; nothing is trimmed. -/
def normalize_line (line : Str) : Str :=
  normAux false line

/-- `lines_equal_norm(a, b)`: equality after whitespace normalization. -/
def lines_equal_norm (a b : Str) : Bool :=
  normalize_line a = normalize_line b

/-- Accumulator core of `_tokenize`: `cur` is the reversed current run,
`curWs` its character class. -/
def tokAux (cur : Str) (curWs : Bool) : Str → List Str
  | [] => [cur.reverse]
  | c :: cs =>
    if isWs c = curWs then tokAux (c :: cur) curWs cs
    else cur.reverse :: tokAux [c] (isWs c) cs

/-- `_tokenize(line)`: `re.findall(r"\s+|\S+", line)` — the alternating list
of maximal whitespace and non-whitespace runs of the line. -/
def tokenize : Str → List Str
  | [] => []
  | c :: cs => tokAux [c] (isWs c) cs

/-! ### difflib.SequenceMatcher

Both call sites pass `isjunk=None`, so the junk set `bjunk` is empty and the
two junk-extension loops of `find_longest_match` (whose guards require
`isbjunk` to hold) never fire; they are therefore omitted.  `autojunk`
"popular" filtering only removes entries from `b2j`. -/

/-- CPython's autojunk rule: with `autojunk` on and `len(b) >= 200`, an
element occurring more than `len(b) // 100 + 1` times in `b` is "popular"
and is dropped from `b2j`. -/
def isPopular (autojunk : Bool) (b : List Str) (x : Str) : Bool :=
  autojunk && decide (200 ≤ b.length) && decide (b.length / 100 + 1 < b.count x)

/-- `b2j[x]`: the ascending list of positions of `x` in `b`, with popular
elements removed (empty list corresponds to a missing key). -/
def b2j (autojunk : Bool) (b : List Str) (x : Str) : List Nat :=
  if isPopular autojunk b x then []
  else (List.range b.length).filter (fun j => b.getD j [] = x)

/-- The candidate length for a match ending at column `j`, given the
previous row's run lengths `g`: Python's `j2lenget(j-1, 0) + 1` (a lookup
of key `-1` yields the default `0`, hence the `j = 0` case). -/
def candK (g : Nat → Nat) (j : Nat) : Nat :=
  (if j = 0 then 0 else g (j - 1)) + 1

/-- One `j`-loop step of `find_longest_match`: record the new best block if
the candidate run beats the current best size. -/
def stepBest (i : Nat) (g : Nat → Nat) (best : Nat × Nat × Nat) (j : Nat) :
    Nat × Nat × Nat :=
  if best.2.2 < candK g j then (i + 1 - candK g j, j + 1 - candK g j, candK g j) else best

/-- The inner `j`-loop of `find_longest_match` over the position list
`js = b2j[a[i]]`: `j < blo` is Python's `continue`, `bhi ≤ j` its `break`
(the position lists are ascending), and `newj2` accumulates `newj2len`. -/
def flmInner (blo bhi i : Nat) (g : Nat → Nat) :
    List Nat → (Nat → Nat) → Nat × Nat × Nat → (Nat → Nat) × (Nat × Nat × Nat)
  | [], newj2, best => (newj2, best)
  | j :: js, newj2, best =>
    if j < blo then flmInner blo bhi i g js newj2 best
    else if bhi ≤ j then (newj2, best)
    else
      flmInner blo bhi i g js
        (fun j' => if j' = j then candK g j else newj2 j') (stepBest i g best j)

/-- The outer `i`-loop of `find_longest_match` over `range(alo, ahi)`:
each row starts a fresh `newj2len` and installs it as `j2len` afterwards. -/
def flmRows (bp : Str → List Nat) (a : List Str) (blo bhi : Nat) :
    List Nat → (Nat → Nat) → Nat × Nat × Nat → Nat × Nat × Nat
  | [], _, best => best
  | i :: is, g, best =>
    let r := flmInner blo bhi i g (bp (a.getD i [])) (fun _ => 0) best
    flmRows bp a blo bhi is r.1 r.2

/-- The leftward extension loop of `find_longest_match` (`fuel` bounds the
number of steps; it is called with `fuel = besti`, and each step decreases
`besti` by one). -/
def extendLeftFuel (a b : List Str) (alo blo : Nat) :
    Nat → Nat × Nat × Nat → Nat × Nat × Nat
  | 0, best => best
  | fuel + 1, (bi, bj, bs) =>
    if alo < bi ∧ blo < bj ∧ a.getD (bi - 1) [] = b.getD (bj - 1) [] then
      extendLeftFuel a b alo blo fuel (bi - 1, bj - 1, bs + 1)
    else (bi, bj, bs)

/-- The rightward extension loop of `find_longest_match` (`fuel = ahi`
bounds the number of steps, each of which increases `besti + bestsize`). -/
def extendRightFuel (a b : List Str) (ahi bhi : Nat) :
    Nat → Nat × Nat × Nat → Nat × Nat × Nat
  | 0, best => best
  | fuel + 1, (bi, bj, bs) =>
    if bi + bs < ahi ∧ bj + bs < bhi ∧ a.getD (bi + bs) [] = b.getD (bj + bs) [] then
      extendRightFuel a b ahi bhi fuel (bi, bj, bs + 1)
    else (bi, bj, bs)

/-- `SequenceMatcher.find_longest_match(alo, ahi, blo, bhi)` with an empty
junk set: the dynamic-programming sweep followed by the two non-junk
extension loops. -/
def find_longest_match (bp : Str → List Nat) (a b : List Str)
    (alo ahi blo bhi : Nat) : Nat × Nat × Nat :=
  let best := flmRows bp a blo bhi ((List.range ahi).drop alo) (fun _ => 0) (alo, blo, 0)
  let best := extendLeftFuel a b alo blo best.1 best
  extendRightFuel a b ahi bhi ahi best

/-- The recursive block collection of `get_matching_blocks`.  Python keeps
an explicit work queue and sorts the collected blocks afterwards; since all
blocks found in the left (resp. right) subrange lie strictly before (resp.
after) the middle block, recursing left-middle-right yields the same sorted
list.  Python also skips empty subranges; recursing into them returns `[]`
because `find_longest_match` finds no block there.  `fuel` dominates the
total interval size, which shrinks at every split. -/
def matchingBlocksFuel (bp : Str → List Nat) (a b : List Str) :
    Nat → Nat → Nat → Nat → Nat → List (Nat × Nat × Nat)
  | 0, _, _, _, _ => []
  | fuel + 1, alo, ahi, blo, bhi =>
    let r := find_longest_match bp a b alo ahi blo bhi
    if r.2.2 = 0 then []
    else
      matchingBlocksFuel bp a b fuel alo r.1 blo r.2.1
        ++ (r.1, r.2.1, r.2.2) ::
          matchingBlocksFuel bp a b fuel (r.1 + r.2.2) ahi (r.2.1 + r.2.2) bhi

/-- The adjacent-block merging pass at the end of `get_matching_blocks`
(`i1 = j1 = k1 = 0` initially; a block adjacent to the accumulated one is
absorbed into it, and only nonempty accumulated blocks are emitted). -/
def mergeBlocks : Nat → Nat → Nat → List (Nat × Nat × Nat) → List (Nat × Nat × Nat)
  | i1, j1, k1, [] => if k1 = 0 then [] else [(i1, j1, k1)]
  | i1, j1, k1, (i2, j2, k2) :: rest =>
    if i1 + k1 = i2 ∧ j1 + k1 = j2 then mergeBlocks i1 j1 (k1 + k2) rest
    else if k1 = 0 then mergeBlocks i2 j2 k2 rest
    else (i1, j1, k1) :: mergeBlocks i2 j2 k2 rest

/-- `SequenceMatcher.get_matching_blocks()`: the merged block list followed
by the terminal sentinel `(len(a), len(b), 0)`. -/
def get_matching_blocks (autojunk : Bool) (a b : List Str) : List (Nat × Nat × Nat) :=
  mergeBlocks 0 0 0
      (matchingBlocksFuel (b2j autojunk b) a b (a.length + b.length + 1) 0 a.length 0 b.length)
    ++ [(a.length, b.length, 0)]

/-- The four opcode tags of `SequenceMatcher.get_opcodes()`. -/
inductive Tag
  | equal
  | insert
  | delete
  | replace
deriving DecidableEq

/-- An opcode `(tag, i1, i2, j1, j2)`. -/
abbrev Opc := Tag × Nat × Nat × Nat × Nat

/-- The opcode construction loop of `get_opcodes`, threading the current
positions `i, j` through the matching blocks. -/
def opcodesOf : Nat → Nat → List (Nat × Nat × Nat) → List Opc
  | _, _, [] => []
  | i, j, (ai, bj, size) :: rest =>
    (if i < ai ∧ j < bj then [(Tag.replace, i, ai, j, bj)]
      else if i < ai then [(Tag.delete, i, ai, j, bj)]
      else if j < bj then [(Tag.insert, i, ai, j, bj)]
      else [])
      ++ (if size = 0 then [] else [(Tag.equal, ai, ai + size, bj, bj + size)])
      ++ opcodesOf (ai + size) (bj + size) rest

/-- `SequenceMatcher.get_opcodes()`. -/
def get_opcodes (autojunk : Bool) (a b : List Str) : List Opc :=
  opcodesOf 0 0 (get_matching_blocks autojunk a b)

/-! ### annotate_changes and diff_lines -/

/-- `f"++{token}++"`. -/
def wrapAdd (t : Str) : Str := '+' :: '+' :: (t ++ ['+', '+'])

/-- `f"--{token}--"`. -/
def wrapDel (t : Str) : Str := '-' :: '-' :: (t ++ ['-', '-'])

/-- Python's slice `xs[j1:j2]`. -/
def slice (xs : List Str) (j1 j2 : Nat) : List Str := (xs.drop j1).take (j2 - j1)

/-- The body of the opcode loop of `annotate_changes`: the strings appended
to `result` for one opcode. -/
def renderOpcode (tokens1 tokens2 : List Str) : Opc → List Str
  | (Tag.equal, _, _, j1, j2) => slice tokens2 j1 j2
  | (Tag.insert, _, _, j1, j2) => (slice tokens2 j1 j2).map wrapAdd
  | (Tag.delete, i1, i2, _, _) => (slice tokens1 i1 i2).map wrapDel
  | (Tag.replace, i1, i2, j1, j2) =>
    (slice tokens1 i1 i2).map wrapDel ++ (slice tokens2 j1 j2).map wrapAdd

/-- `annotate_changes(line1, line2)`: tokenize both lines, run
`SequenceMatcher(None, tokens1, tokens2)` (default `autojunk=True`) and
join the rendered opcodes. -/
def annotate_changes (line1 line2 : Str) : Str :=
  let tokens1 := tokenize line1
  let tokens2 := tokenize line2
  (((get_opcodes true tokens1 tokens2).map (renderOpcode tokens1 tokens2)).flatten).flatten

/-- `_format_file_line(label, content)`: both branches of the Python
conditional produce the label, a colon-space separator, and the content. -/
def format_file_line (label content : Str) : Str :=
  if content ≠ [] then label ++ ':' :: ' ' :: content else label ++ [':', ' ']

/-- The label `"File A"`. -/
def fileA : Str := "File A".toList

/-- The label `"File B"`. -/
def fileB : Str := "File B".toList

/-- The six output lines of a pure-insertion block. -/
def insBlock (line2 : Str) : List Str :=
  [['-', '-', '-'], format_file_line fileA [], format_file_line fileB line2,
    [], wrapAdd line2, []]

/-- The six output lines of a pure-deletion block. -/
def delBlock (line1 : Str) : List Str :=
  [['-', '-', '-'], format_file_line fileA line1, format_file_line fileB [],
    [], wrapDel line1, []]

/-- The six output lines of a paired (replace) block. -/
def pairBlock (line1 line2 : Str) : List Str :=
  [['-', '-', '-'], format_file_line fileA line1, format_file_line fileB line2,
    [], annotate_changes line1 line2, []]

/-- The body of the opcode loop of `diff_lines`: the output lines emitted
for one opcode.  `equal` emits nothing; `insert`/`delete` emit one block per
line of the span; `replace` pairs the two sides with `zip` (which stops at
the shorter range, Python's `strict=False`) and then emits the leftover
lines of the longer side as pure deletions or insertions. -/
def opcodeOutput (lines1 lines2 : List Str) : Opc → List Str
  | (Tag.equal, _, _, _, _) => []
  | (Tag.insert, _, _, j1, j2) =>
    (List.range' j1 (j2 - j1)).flatMap fun j => insBlock (lines2.getD j [])
  | (Tag.delete, i1, i2, _, _) =>
    (List.range' i1 (i2 - i1)).flatMap fun i => delBlock (lines1.getD i [])
  | (Tag.replace, i1, i2, j1, j2) =>
    ((List.range' i1 (i2 - i1)).zip (List.range' j1 (j2 - j1))).flatMap
        (fun p => pairBlock (lines1.getD p.1 []) (lines2.getD p.2 []))
      ++ (if j2 - j1 < i2 - i1 then
            (List.range' (i1 + (j2 - j1)) (i2 - (i1 + (j2 - j1)))).flatMap
              fun i => delBlock (lines1.getD i [])
          else [])
      ++ (if i2 - i1 < j2 - j1 then
            (List.range' (j1 + (i2 - i1)) (j2 - (j1 + (i2 - i1)))).flatMap
              fun j => insBlock (lines2.getD j [])
          else [])

/-- `diff_lines(lines1, lines2)`: the matcher is constructed with
`autojunk=False` and then re-seeded with the normalized line lists by
`set_seq1`/`set_seq2`, so the opcodes are computed over the normalized
sequences while the emitted blocks use the raw lines at the same indices. -/
def diff_lines (lines1 lines2 : List Str) : List Str :=
  (get_opcodes false (lines1.map normalize_line) (lines2.map normalize_line)).flatMap
    (opcodeOutput lines1 lines2)

/-- The final `"\n".join(diff_output)` of `diff_files`, applied to the
already-read line lists (the file I/O around it is outside the model). -/
def diff_result (lines1 lines2 : List Str) : Str :=
  List.intercalate ['\n'] (diff_lines lines1 lines2)

/-- The number of difference blocks in a diff output: each block starts
with its own `"---"` separator line. -/
def numBlocks (output : List Str) : Nat :=
  output.countP (fun l => l = ['-', '-', '-'])

/-! ### Reference functions used to state properties -/

/-- Textbook longest-common-subsequence length, with explicit fuel so that
the definition evaluates by kernel reduction (`fuel = xs.length + ys.length`
always suffices). -/
def lcsLenFuel : Nat → List Str → List Str → Nat
  | 0, _, _ => 0
  | _ + 1, [], _ => 0
  | _ + 1, _, [] => 0
  | fuel + 1, x :: xs, y :: ys =>
    if x = y then lcsLenFuel fuel xs ys + 1
    else max (lcsLenFuel fuel (x :: xs) ys) (lcsLenFuel fuel xs (y :: ys))

/-- Longest-common-subsequence length of two lists of strings. -/
def lcsLen (xs ys : List Str) : Nat :=
  lcsLenFuel (xs.length + ys.length) xs ys

/-- Total number of positions covered by the `equal` opcodes of an opcode
list (equal spans cover the same number of positions on both sides). -/
def equalSpanTotal (ops : List Opc) : Nat :=
  (ops.map fun op => if op.1 = Tag.equal then op.2.2.1 - op.2.1 else 0).sum

/-- Inserting an element at position `p` of a list. -/
def insertAt (p : Nat) (x : Str) (l : List Str) : List Str :=
  l.take p ++ x :: l.drop p

/-! ### Invariants used to reason about the matcher -/

/-- The combined effect of Python's `continue` (`j < blo`) and `break`
(`j >= bhi`) on an ascending position list: only positions in
`[blo, bhi)` are processed. -/
def inRange (blo bhi j : Nat) : Bool :=
  decide (blo ≤ j) && decide (j < bhi)

/-- Pointwise description of a `newj2len` dictionary after a row: positions
in `js` hold their candidate run length, all others keep `nj`. -/
def updMany (nj : Nat → Nat) (js : List Nat) (f : Nat → Nat) : Nat → Nat :=
  fun j' => if j' ∈ js then f j' else nj j'

/-- The `j2len` table produced by the DP rows when a sequence is compared
with itself: `selfRuns s i j` is the length of the common run ending at row
`i - 1` and column `j` (zero before any row is processed). -/
def selfRuns (s : List Str) : Nat → Nat → Nat
  | 0, _ => 0
  | i + 1, j =>
    if j < s.length ∧ s.getD j [] = s.getD i [] then candK (selfRuns s i) j else 0

/-- The invariant delivered by `find_longest_match`: the best block lies
inside the search rectangle and its two slices agree pointwise. -/
def BestInv (a b : List Str) (alo ahi blo bhi : Nat) (best : Nat × Nat × Nat) : Prop :=
  alo ≤ best.1 ∧ blo ≤ best.2.1 ∧ best.1 + best.2.2 ≤ ahi ∧ best.2.1 + best.2.2 ≤ bhi ∧
    ∀ t, t < best.2.2 → a.getD (best.1 + t) [] = b.getD (best.2.1 + t) []

/-- The invariant on the `j2len` table before processing row `row` of the
rectangle starting at `(rowLo, blo)`: run lengths are bounded by the number
of processed rows and by the distance to `blo`, live inside `[blo, bhi)`,
and record pointwise-equal runs ending at row `row - 1`. -/
def RowInv (a b : List Str) (rowLo blo bhi row : Nat) (g : Nat → Nat) : Prop :=
  ∀ j, g j ≤ row - rowLo ∧ g j ≤ j + 1 - blo ∧ (g j ≠ 0 → blo ≤ j ∧ j < bhi) ∧
    ∀ t, t < g j → a.getD (row - 1 - t) [] = b.getD (j - t) []

/-- Matching blocks listed in order inside the rectangle bounded above by
`(ahi, bhi)`, starting at or after `(ci, cj)`; every block is nonempty. -/
def BlocksChain (ahi bhi : Nat) : Nat → Nat → List (Nat × Nat × Nat) → Prop
  | _, _, [] => True
  | ci, cj, (i, j, k) :: rest =>
    ci ≤ i ∧ cj ≤ j ∧ i + k ≤ ahi ∧ j + k ≤ bhi ∧ 0 < k ∧
      BlocksChain ahi bhi (i + k) (j + k) rest

/-- Every matching block pairs pointwise-equal slices of `a` and `b`. -/
def BlocksValid (a b : List Str) (bl : List (Nat × Nat × Nat)) : Prop :=
  ∀ blk ∈ bl, ∀ t, t < blk.2.2 → a.getD (blk.1 + t) [] = b.getD (blk.2.1 + t) []

/-- The covering structure of an opcode list starting at `(i, j)`: opcodes
are contiguous, stay inside `(la, lb)`, end exactly at `(la, lb)`, and each
tag correctly describes the emptiness of its two ranges (`equal` spans
additionally cover the same number of positions on both sides). -/
def OpsChain (la lb : Nat) : Nat → Nat → List Opc → Prop
  | i, j, [] => i = la ∧ j = lb
  | i, j, (tag, i1, i2, j1, j2) :: rest =>
    i1 = i ∧ j1 = j ∧ i2 ≤ la ∧ j2 ≤ lb ∧
      (match tag with
        | Tag.equal => i < i2 ∧ j < j2 ∧ i2 - i = j2 - j
        | Tag.insert => i = i2 ∧ j < j2
        | Tag.delete => i < i2 ∧ j = j2
        | Tag.replace => i < i2 ∧ j < j2) ∧
      OpsChain la lb i2 j2 rest

/-- Every `equal` opcode pairs pointwise-equal slices of `a` and `b`. -/
def EqOpsValid (a b : List Str) (ops : List Opc) : Prop :=
  ∀ op ∈ ops, op.1 = Tag.equal →
    ∀ t, t < op.2.2.1 - op.2.1 → a.getD (op.2.1 + t) [] = b.getD (op.2.2.2.1 + t) []

/-! ### Definitions transcribed from the specification, for the
refinement-style claims that compare code behaviour with the spec text -/

/-- Modelled from the spec: collapsing one token — a maximal whitespace run
becomes a single space, a non-whitespace run is kept verbatim. -/
def collapseTok (t : Str) : Str :=
  if isWs (t.headD 'a') then [' '] else t

/-- Modelled from the spec: normalization as per-token collapse over the
tokenization of the line. -/
def normalizeSpec (s : Str) : Str :=
  ((tokenize s).map collapseTok).flatten

/-- Modelled from the spec: a tagged token — Unchanged, Added or Removed. -/
inductive ChangeMarker
  | unchanged (t : Str)
  | added (t : Str)
  | removed (t : Str)
deriving DecidableEq

/-- Modelled from the spec: rendering one tagged token, wrapping additions
and removals with their marker pairs. -/
def renderMarker : ChangeMarker → Str
  | ChangeMarker.unchanged t => t
  | ChangeMarker.added t => wrapAdd t
  | ChangeMarker.removed t => wrapDel t

/-- Modelled from the spec (§4.3 step 3): the tagged tokens of one span —
Equal spans unmarked, Insert spans added (tokens from B), Delete spans
removed (tokens from A), Replace spans removals then additions, never
interleaved. -/
def opMarkers (tokens1 tokens2 : List Str) : Opc → List ChangeMarker
  | (Tag.equal, _, _, j1, j2) => (slice tokens2 j1 j2).map ChangeMarker.unchanged
  | (Tag.insert, _, _, j1, j2) => (slice tokens2 j1 j2).map ChangeMarker.added
  | (Tag.delete, i1, i2, _, _) => (slice tokens1 i1 i2).map ChangeMarker.removed
  | (Tag.replace, i1, i2, j1, j2) =>
    (slice tokens1 i1 i2).map ChangeMarker.removed
      ++ (slice tokens2 j1 j2).map ChangeMarker.added

/-- Modelled from the spec: the annotated line as the concatenation of the
rendered tagged tokens of all spans in order. -/
def annotateSpec (line1 line2 : Str) : Str :=
  let t1 := tokenize line1
  let t2 := tokenize line2
  (((get_opcodes true t1 t2).flatMap (opMarkers t1 t2)).map renderMarker).flatten

/-- Modelled from the spec (§4.2): rendering a Replace span — the two sides
paired index-by-index up to the shorter span length, then the leftover lines
of the longer side as pure deletions resp. insertions. -/
def replaceSpanSpec (lines1 lines2 : List Str) (i1 i2 j1 j2 : Nat) : List Str :=
  let m := min (i2 - i1) (j2 - j1)
  ((List.range m).map fun t =>
      pairBlock (lines1.getD (i1 + t) []) (lines2.getD (j1 + t) [])).flatten
    ++ ((List.range (i2 - i1 - m)).map fun t =>
        delBlock (lines1.getD (i1 + m + t) [])).flatten
    ++ ((List.range (j2 - j1 - m)).map fun t =>
        insBlock (lines2.getD (j1 + m + t) [])).flatten

end DiffUtility

namespace DiffUtility

/-- Concatenating the tokens of the suffix still to be processed onto the
pending run recovers the original characters. -/
lemma tokAux_flatten (cs : Str) : ∀ (cur : Str) (w : Bool),
    (tokAux cur w cs).flatten = cur.reverse ++ cs := by
  induction cs with
  | nil => intro cur w; simp [tokAux]
  | cons c cs ih =>
    intro cur w
    by_cases h : isWs c = w
    · simp [tokAux, h, ih]
    · simp [tokAux, h, ih]

/-- Tokenization is lossless: the tokens of a line concatenate back to it. -/
lemma tokenize_flatten (s : Str) : (tokenize s).flatten = s := by
  cases s with
  | nil => rfl
  | cons c cs => simp [tokenize, tokAux_flatten]

/-! ### The DP inner loop as a fold over the in-range positions -/

lemma extendLeftFuel_of_not {a b : List Str} {alo blo : Nat} {bi bj bs : Nat}
    (h : ¬ alo < bi) : ∀ fuel, extendLeftFuel a b alo blo fuel (bi, bj, bs) = (bi, bj, bs) := by
  intro fuel
  cases fuel with
  | zero => rfl
  | succ fuel =>
    rw [extendLeftFuel, if_neg]
    intro hc
    exact h hc.1

lemma extendRightFuel_of_not {a b : List Str} {ahi bhi : Nat} {bi bj bs : Nat}
    (h : ¬ bi + bs < ahi) : ∀ fuel, extendRightFuel a b ahi bhi fuel (bi, bj, bs) = (bi, bj, bs) := by
  intro fuel
  cases fuel with
  | zero => rfl
  | succ fuel =>
    rw [extendRightFuel, if_neg]
    intro hc
    exact h hc.1

lemma drop_range (n m : Nat) : (List.range n).drop m = List.range' m (n - m) := by
  induction m with
  | zero => simp [List.range_eq_range']
  | succ m ih =>
    by_cases h : m < n
    · rw [← List.drop_drop, ih]
      cases hnm : n - m with
      | zero => omega
      | succ k =>
        rw [List.range'_succ, List.drop_one, List.tail_cons]
        congr 1
        omega
    · rw [List.drop_eq_nil_of_le, Nat.sub_eq_zero_of_le (by omega), List.range']
      simpa using by omega

lemma updMany_nil (nj : Nat → Nat) (f : Nat → Nat) : updMany nj [] f = nj := by
  funext j
  simp [updMany]

/-- The inner loop over an ascending position list is the fold of
`stepBest` over the positions lying in `[blo, bhi)`, together with the
pointwise update of the `newj2len` table at those positions. -/
lemma flmInner_eq {blo bhi i : Nat} {g : Nat → Nat} :
    ∀ (js : List Nat), js.Pairwise (· < ·) → ∀ (nj : Nat → Nat) (best : Nat × Nat × Nat),
      flmInner blo bhi i g js nj best =
        (updMany nj (js.filter (inRange blo bhi)) (candK g),
          (js.filter (inRange blo bhi)).foldl (stepBest i g) best) := by
  intro js
  induction js with
  | nil => intro _ nj best; simp [flmInner, updMany_nil]
  | cons j js ih =>
    intro hp nj best
    have hp' := (List.pairwise_cons.mp hp).2
    have hmem := (List.pairwise_cons.mp hp).1
    by_cases h1 : j < blo
    · have hr : inRange blo bhi j = false := by simp [inRange]; omega
      rw [flmInner, if_pos h1, List.filter_cons, hr]
      exact ih hp' nj best
    · by_cases h2 : bhi ≤ j
      · have hr : inRange blo bhi j = false := by simp [inRange]; omega
        have hnil : js.filter (inRange blo bhi) = [] := by
          rw [List.filter_eq_nil_iff]
          intro x hx
          have := hmem x hx
          simp [inRange]
          omega
        rw [flmInner, if_neg h1, if_pos h2, List.filter_cons, hr, hnil]
        simp [updMany_nil]
      · have hr : inRange blo bhi j = true := by simp [inRange]; omega
        rw [flmInner, if_neg h1, if_neg h2, List.filter_cons, hr]
        rw [ih hp', if_pos rfl, List.foldl_cons]
        congr 1
        funext j'
        by_cases hj' : j' ∈ js.filter (inRange blo bhi) <;>
          by_cases hj'' : j' = j <;>
            simp [updMany, hj', hj'']

/-- If no candidate beats the current best size, the fold keeps the best. -/
lemma foldl_stepBest_of_le {i : Nat} {g : Nat → Nat} :
    ∀ (l : List Nat) (best : Nat × Nat × Nat), (∀ j ∈ l, candK g j ≤ best.2.2) →
      l.foldl (stepBest i g) best = best := by
  intro l
  induction l with
  | nil => intro best _; rfl
  | cons j l ih =>
    intro best h
    have hj : candK g j ≤ best.2.2 := h j (by simp)
    rw [List.foldl_cons, stepBest, if_neg (by omega)]
    exact ih best fun x hx => h x (by simp [hx])

/-! ### Comparing a sequence with itself -/

lemma b2j_false (b : List Str) (x : Str) :
    b2j false b x = (List.range b.length).filter (fun j => b.getD j [] = x) := by
  rw [b2j, if_neg]
  simp [isPopular]

lemma b2j_pairwise (aj : Bool) (b : List Str) (x : Str) :
    (b2j aj b x).Pairwise (· < ·) := by
  rw [b2j]
  by_cases h : isPopular aj b x
  · simp [h]
  · rw [if_neg h]
    exact (List.pairwise_lt_range b.length).filter _

lemma b2j_mem {aj : Bool} {b : List Str} {x : Str} {j : Nat} (h : j ∈ b2j aj b x) :
    j < b.length ∧ b.getD j [] = x := by
  rw [b2j] at h
  by_cases hp : isPopular aj b x
  · simp [hp] at h
  · rw [if_neg hp] at h
    have h1 := List.mem_filter.mp h
    refine ⟨List.mem_range.mp h1.1, by simpa using h1.2⟩

lemma selfRuns_le_fst (s : List Str) : ∀ i j, selfRuns s i j ≤ i := by
  intro i
  induction i with
  | zero => intro j; simp [selfRuns]
  | succ i ih =>
    intro j
    rw [selfRuns]
    split
    · rw [candK]
      split
      · omega
      · have := ih (j - 1)
        omega
    · omega

lemma selfRuns_le_snd (s : List Str) : ∀ i j, selfRuns s i j ≤ j + 1 := by
  intro i
  induction i with
  | zero => intro j; simp [selfRuns]
  | succ i ih =>
    intro j
    rw [selfRuns]
    split
    · rw [candK]
      split
      · omega
      · have := ih (j - 1)
        omega
    · omega

lemma selfRuns_diag (s : List Str) : ∀ i, i < s.length → selfRuns s (i + 1) i = i + 1 := by
  intro i
  induction i with
  | zero =>
    intro h
    simp [selfRuns, candK, h]
  | succ i ih =>
    intro h
    rw [selfRuns, if_pos ⟨h, rfl⟩, candK, if_neg (by omega)]
    have : i + 1 - 1 = i := by omega
    rw [this, ih (by omega)]

lemma candK_selfRuns_diag (s : List Str) (i : Nat) (hi : i < s.length) :
    candK (selfRuns s i) i = i + 1 := by
  cases i with
  | zero => simp [candK]
  | succ m =>
    rw [candK, if_neg (by omega)]
    have : m + 1 - 1 = m := by omega
    rw [this, selfRuns_diag s m (by omega)]

lemma candK_selfRuns_le (s : List Str) (i j : Nat) : candK (selfRuns s i) j ≤ i + 1 := by
  rw [candK]
  split
  · omega
  · have := selfRuns_le_fst s i (j - 1)
    omega

/-- Processing row `i` of the self-comparison: the best block grows along
the diagonal and the run table advances one row. -/
lemma flmInner_self (s : List Str) (i : Nat) (hi : i < s.length) :
    flmInner 0 s.length i (selfRuns s i) (b2j false s (s.getD i [])) (fun _ => 0) (0, 0, i)
      = (selfRuns s (i + 1), (0, 0, i + 1)) := by
  set n := s.length with hn
  set x := s.getD i [] with hx
  set p : Nat → Bool := fun j => decide (s.getD j [] = x) with hp
  have hjs : b2j false s x = (List.range n).filter p := b2j_false s x
  have hfilter : ((List.range n).filter p).filter (inRange 0 n) = (List.range n).filter p := by
    rw [List.filter_eq_self]
    intro j hj
    have := List.mem_range.mp (List.mem_filter.mp hj).1
    simp [inRange]
    omega
  rw [hjs, flmInner_eq _ ((List.pairwise_lt_range n).filter p), hfilter]
  have hsplit : List.range n = List.range i ++ (List.range (n - i)).map (i + ·) := by
    rw [← List.range_add]
    congr 1
    omega
  have hsplit2 : List.range (n - i) = 0 :: List.map Nat.succ (List.range (n - i - 1)) := by
    rw [← List.range_succ_eq_map]
    congr 1
    omega
  rw [Prod.mk.injEq]
  constructor
  · funext j
    rw [updMany]
    by_cases hj : j ∈ (List.range n).filter p
    · have hj' := List.mem_filter.mp hj
      rw [if_pos hj, selfRuns, if_pos ⟨List.mem_range.mp hj'.1, of_decide_eq_true hj'.2⟩]
    · rw [if_neg hj, selfRuns, if_neg]
      intro hcond
      exact hj (List.mem_filter.mpr ⟨List.mem_range.mpr hcond.1, decide_eq_true hcond.2⟩)
  · have hpart1 :
        List.foldl (stepBest i (selfRuns s i)) (0, 0, i) ((List.range i).filter p) = (0, 0, i) := by
      apply foldl_stepBest_of_le
      intro j hj
      have hj' := List.mem_filter.mp hj
      have hjlt : j < i := List.mem_range.mp hj'.1
      have h2 := selfRuns_le_snd s i (j - 1)
      rw [candK]
      split
      · simp
        omega
      · simp
        omega
    rw [hsplit, List.filter_append, List.foldl_append, hpart1, hsplit2, List.map_cons,
      List.filter_cons]
    have hpi : p i = true := by simp [hp, hx, List.getD]
    simp only [Nat.add_zero, hpi, if_pos]
    rw [List.foldl_cons, stepBest, if_pos, candK_selfRuns_diag s i hi]
    · have h1 : i + 1 - (i + 1) = 0 := by omega
      rw [h1]
      apply foldl_stepBest_of_le
      intro j hj
      have := candK_selfRuns_le s i j
      simpa using this
    · rw [candK_selfRuns_diag s i hi]
      simp

lemma flmRows_self (s : List Str) :
    ∀ m k, k + m = s.length →
      flmRows (b2j false s) s 0 s.length (List.range' k m) (selfRuns s k) (0, 0, k)
        = (0, 0, s.length) := by
  intro m
  induction m with
  | zero =>
    intro k hk
    rw [List.range']
    rw [flmRows]
    simp
    omega
  | succ m ih =>
    intro k hk
    rw [List.range'_succ, flmRows, flmInner_self s k (by omega)]
    exact ih (k + 1) (by omega)

lemma find_longest_match_eq (bp : Str → List Nat) (a b : List Str) (alo ahi blo bhi : Nat) :
    find_longest_match bp a b alo ahi blo bhi =
      extendRightFuel a b ahi bhi ahi
        (extendLeftFuel a b alo blo
          (flmRows bp a blo bhi ((List.range ahi).drop alo) (fun _ => 0) (alo, blo, 0)).1
          (flmRows bp a blo bhi ((List.range ahi).drop alo) (fun _ => 0) (alo, blo, 0))) := rfl

lemma flm_self (s : List Str) :
    find_longest_match (b2j false s) s s 0 s.length 0 s.length = (0, 0, s.length) := by
  have h0 : (fun _ : Nat => 0) = selfRuns s 0 := by funext j; rfl
  have hrows : (List.range s.length).drop 0 = List.range' 0 s.length := by
    rw [List.drop_zero, List.range_eq_range']
  rw [find_longest_match_eq, hrows, h0, flmRows_self s s.length 0 (by omega)]
  have h1 : extendLeftFuel s s 0 0 (0, 0, s.length).1 (0, 0, s.length) = (0, 0, s.length) := by
    exact extendLeftFuel_of_not (by omega) _
  rw [h1]
  exact extendRightFuel_of_not (by omega) _

lemma flm_empty (bp : Str → List Nat) (a b : List Str) (alo ahi blo bhi : Nat)
    (h : ahi ≤ alo) : find_longest_match bp a b alo ahi blo bhi = (alo, blo, 0) := by
  have hrows : (List.range ahi).drop alo = [] :=
    List.drop_eq_nil_of_le (by simpa using h)
  rw [find_longest_match_eq, hrows, flmRows]
  have h1 : extendLeftFuel a b alo blo (alo, blo, 0).1 (alo, blo, 0) = (alo, blo, 0) :=
    extendLeftFuel_of_not (by omega) _
  rw [h1]
  exact extendRightFuel_of_not (by omega) _

lemma matchingBlocksFuel_succ (bp : Str → List Nat) (a b : List Str)
    (fuel alo ahi blo bhi : Nat) :
    matchingBlocksFuel bp a b (fuel + 1) alo ahi blo bhi =
      if (find_longest_match bp a b alo ahi blo bhi).2.2 = 0 then []
      else
        matchingBlocksFuel bp a b fuel alo (find_longest_match bp a b alo ahi blo bhi).1
            blo (find_longest_match bp a b alo ahi blo bhi).2.1
          ++ ((find_longest_match bp a b alo ahi blo bhi).1,
              (find_longest_match bp a b alo ahi blo bhi).2.1,
              (find_longest_match bp a b alo ahi blo bhi).2.2) ::
            matchingBlocksFuel bp a b fuel
              ((find_longest_match bp a b alo ahi blo bhi).1
                + (find_longest_match bp a b alo ahi blo bhi).2.2)
              ahi
              ((find_longest_match bp a b alo ahi blo bhi).2.1
                + (find_longest_match bp a b alo ahi blo bhi).2.2)
              bhi := rfl

lemma matchingBlocksFuel_of_k0 {bp : Str → List Nat} {a b : List Str} {alo ahi blo bhi : Nat}
    (h : (find_longest_match bp a b alo ahi blo bhi).2.2 = 0) :
    ∀ fuel, matchingBlocksFuel bp a b fuel alo ahi blo bhi = [] := by
  intro fuel
  cases fuel with
  | zero => rfl
  | succ fuel => rw [matchingBlocksFuel_succ, if_pos h]

lemma get_matching_blocks_self (s : List Str) (h : s ≠ []) :
    get_matching_blocks false s s = [(0, 0, s.length), (s.length, s.length, 0)] := by
  have hn : 0 < s.length := List.length_pos.mpr h
  have hleft : matchingBlocksFuel (b2j false s) s s (s.length + s.length) 0 0 0 0 = [] :=
    matchingBlocksFuel_of_k0 (by rw [flm_empty _ _ _ _ _ _ _ (by omega)]) _
  have hright :
      matchingBlocksFuel (b2j false s) s s (s.length + s.length)
        s.length s.length s.length s.length = [] :=
    matchingBlocksFuel_of_k0 (by rw [flm_empty _ _ _ _ _ _ _ (by omega)]) _
  rw [get_matching_blocks, matchingBlocksFuel_succ, flm_self]
  rw [if_neg (by simpa using h)]
  simp only [Nat.zero_add]
  rw [hleft, hright, List.nil_append]
  rw [mergeBlocks, if_pos (by omega), mergeBlocks, if_neg (by omega)]
  simp

lemma get_opcodes_self (s : List Str) :
    get_opcodes false s s =
      if s.length = 0 then [] else [(Tag.equal, 0, s.length, 0, s.length)] := by
  by_cases h : s = []
  · subst h
    rfl
  · have hn : 0 < s.length := List.length_pos.mpr h
    rw [if_neg (by omega), get_opcodes, get_matching_blocks_self s h]
    rw [opcodesOf, opcodesOf, opcodesOf]
    rw [if_neg (by omega), if_neg (by omega), if_neg (by omega)]
    rw [if_neg (by omega), if_neg (by omega), if_neg (by omega), if_pos rfl]
    simp

/-- Comparing any line list with itself produces no output at all. -/
lemma diff_lines_self (L : List Str) : diff_lines L L = [] := by
  rw [diff_lines, get_opcodes_self]
  by_cases h : (L.map normalize_line).length = 0
  · rw [if_pos h]
    rfl
  · rw [if_neg h]
    rfl

/-- C7: for every line list L, diff_lines(L, L) produces a purely Equal
alignment (no Insert, Delete or Replace opcode), no output lines, and an
empty formatted diff result. -/
theorem C7_self_diff_is_empty (L : List Str) :
    (∀ op ∈ get_opcodes false (L.map normalize_line) (L.map normalize_line),
        op.1 = Tag.equal)
      ∧ diff_lines L L = [] ∧ diff_result L L = [] := by
  refine ⟨?_, diff_lines_self L, ?_⟩
  · intro op hop
    rw [get_opcodes_self] at hop
    by_cases h : (L.map normalize_line).length = 0
    · rw [if_pos h] at hop
      simp at hop
    · rw [if_neg h] at hop
      simp at hop
      rw [hop]
  · rw [diff_result, diff_lines_self]
    rfl

/-- C1: for every pair of line lists of the same length whose corresponding
lines are equal after whitespace normalization, diff_lines produces no
difference block at all. -/
theorem C1_whitespace_quantity_invariance (A B : List Str)
    (hlen : A.length = B.length)
    (h : ∀ i, i < A.length →
      normalize_line (A.getD i []) = normalize_line (B.getD i [])) :
    diff_lines A B = [] := by
  have hmap : A.map normalize_line = B.map normalize_line := by
    apply List.ext_getElem
    · simp [hlen]
    · intro i h1 h2
      simp only [List.getElem_map]
      have hiA : i < A.length := by simpa using h1
      have hiB : i < B.length := by simpa using h2
      rw [← List.getD_eq_getElem A [] hiA, ← List.getD_eq_getElem B [] hiB]
      exact h i hiA
  rw [diff_lines, hmap, get_opcodes_self]
  by_cases hz : (B.map normalize_line).length = 0
  · rw [if_pos hz]
    rfl
  · rw [if_neg hz]
    rfl

/-- Witness for C1 at the spec scenario: lines "d. H" and "d.  H" differ
only in whitespace quantity, and the diff output is empty. -/
theorem C1_witness :
    ["d. H".toList].length = ["d.  H".toList].length
      ∧ (∀ i, i < ["d. H".toList].length →
          normalize_line (["d. H".toList].getD i [])
            = normalize_line (["d.  H".toList].getD i []))
      ∧ diff_lines ["d. H".toList] ["d.  H".toList] = [] := by
  have hnorm : ∀ i, i < ["d. H".toList].length →
      normalize_line (["d. H".toList].getD i [])
        = normalize_line (["d.  H".toList].getD i []) := by
    intro i hi
    have h0 : i = 0 := by simpa using hi
    subst h0
    decide
  exact ⟨rfl, hnorm, C1_whitespace_quantity_invariance _ _ rfl hnorm⟩

/-- C9: tokenization is a lossless round trip — concatenating the tokens of
any line reproduces the line exactly. -/
theorem C9_tokenization_lossless (s : Str) : (tokenize s).flatten = s :=
  tokenize_flatten s

/-! ### General invariants of find_longest_match -/

/-- A candidate run ending at `(row, j)` pairs pointwise-equal positions. -/
lemma candK_valid {a b : List Str} {alo blo bhi row : Nat} {g : Nat → Nat}
    (hinv : RowInv a b alo blo bhi row g) {j : Nat} (hj : b.getD j [] = a.getD row []) :
    ∀ u, u < candK g j → a.getD (row - u) [] = b.getD (j - u) [] := by
  intro u hu
  cases u with
  | zero =>
    simpa using hj.symm
  | succ v =>
    rw [candK] at hu
    cases j with
    | zero => simp at hu
    | succ m =>
      rw [if_neg (by omega)] at hu
      have hv : v < g (m + 1 - 1) := by omega
      have e1 : m + 1 - 1 = m := by omega
      rw [e1] at hv
      have := (hinv m).2.2.2 v hv
      have e2 : row - (v + 1) = row - 1 - v := by omega
      have e3 : m + 1 - (v + 1) = m - v := by omega
      rw [e2, e3]
      exact this

/-- Folding `stepBest` over in-range matching positions preserves the best
block invariant. -/
lemma foldl_stepBest_inv {a b : List Str} {alo ahi blo bhi row : Nat} {g : Nat → Nat}
    (hrow1 : alo ≤ row) (hrow2 : row < ahi)
    (hinv : RowInv a b alo blo bhi row g) :
    ∀ (l : List Nat) (best : Nat × Nat × Nat),
      (∀ j ∈ l, blo ≤ j ∧ j < bhi ∧ b.getD j [] = a.getD row []) →
      BestInv a b alo ahi blo bhi best →
      BestInv a b alo ahi blo bhi (l.foldl (stepBest row g) best) := by
  intro l
  induction l with
  | nil => intro best _ hb; exact hb
  | cons j l ih =>
    intro best hmem hb
    rw [List.foldl_cons]
    apply ih _ (fun x hx => hmem x (by simp [hx]))
    obtain ⟨hj1, hj2, hj3⟩ := hmem j (by simp)
    rw [stepBest]
    split
    · set k := candK g j with hk
      have hk1 : k ≤ row + 1 - alo := by
        rw [hk, candK]
        split
        · omega
        · have := (hinv (j - 1)).1
          omega
      have hk2 : k ≤ j + 1 - blo := by
        rw [hk, candK]
        cases j with
        | zero =>
          have : blo = 0 := by omega
          simp [this]
        | succ m =>
          rw [if_neg (by omega)]
          have := (hinv (m + 1 - 1)).2.1
          omega
      have hkpos : 0 < k := by rw [hk, candK]; omega
      refine ⟨?_, ?_, ?_, ?_, ?_⟩
      · show alo ≤ row + 1 - k
        omega
      · show blo ≤ j + 1 - k
        omega
      · show row + 1 - k + k ≤ ahi
        omega
      · show j + 1 - k + k ≤ bhi
        omega
      · show ∀ t, t < k → a.getD (row + 1 - k + t) [] = b.getD (j + 1 - k + t) []
        intro t ht
        have e1 : row + 1 - k + t = row - (k - 1 - t) := by omega
        have e2 : j + 1 - k + t = j - (k - 1 - t) := by omega
        rw [e1, e2]
        exact candK_valid hinv hj3 (k - 1 - t) (by omega)
    · exact hb

/-- Processing one row advances the `j2len` invariant by one row. -/
lemma rowInv_next {a b : List Str} {alo blo bhi row : Nat} {g : Nat → Nat}
    (hrow1 : alo ≤ row)
    (hinv : RowInv a b alo blo bhi row g) (js : List Nat)
    (hmem : ∀ j ∈ js, blo ≤ j ∧ j < bhi ∧ b.getD j [] = a.getD row []) :
    RowInv a b alo blo bhi (row + 1) (updMany (fun _ => 0) js (candK g)) := by
  intro j
  rw [updMany]
  by_cases hj : j ∈ js
  · rw [if_pos hj]
    obtain ⟨hj1, hj2, hj3⟩ := hmem j hj
    refine ⟨?_, ?_, fun _ => ⟨hj1, hj2⟩, ?_⟩
    · rw [candK]
      split
      · omega
      · have := (hinv (j - 1)).1
        omega
    · rw [candK]
      cases j with
      | zero =>
        have : blo = 0 := by omega
        simp [this]
      | succ m =>
        rw [if_neg (by omega)]
        have := (hinv (m + 1 - 1)).2.1
        omega
    · intro t ht
      have e1 : row + 1 - 1 - t = row - t := by omega
      rw [e1]
      exact candK_valid hinv hj3 t ht
  · rw [if_neg hj]
    exact ⟨by omega, by omega, by omega, by omega⟩

/-- The DP rows preserve the best-block invariant. -/
lemma flmRows_inv {aj : Bool} {a b : List Str} {alo ahi blo bhi : Nat} :
    ∀ (m r g best), alo ≤ r → r + m ≤ ahi →
      RowInv a b alo blo bhi r g →
      BestInv a b alo ahi blo bhi best →
      BestInv a b alo ahi blo bhi
        (flmRows (b2j aj b) a blo bhi (List.range' r m) g best) := by
  intro m
  induction m with
  | zero =>
    intro r g best _ _ _ hb
    rw [List.range']
    rw [flmRows]
    exact hb
  | succ m ih =>
    intro r g best hr1 hr2 hrow hb
    rw [List.range'_succ, flmRows]
    have hjs := b2j_pairwise aj b (a.getD r [])
    rw [flmInner_eq _ hjs]
    have hmem : ∀ j ∈ (b2j aj b (a.getD r [])).filter (inRange blo bhi),
        blo ≤ j ∧ j < bhi ∧ b.getD j [] = a.getD r [] := by
      intro j hj
      have h1 := List.mem_filter.mp hj
      have h2 := b2j_mem h1.1
      have h3 : inRange blo bhi j = true := h1.2
      simp [inRange] at h3
      exact ⟨h3.1, h3.2, h2.2⟩
    apply ih (r + 1) _ _ (by omega) (by omega)
    · exact rowInv_next hr1 hrow _ hmem
    · exact foldl_stepBest_inv hr1 (by omega) hrow _ best hmem hb

/-- The leftward extension loop preserves the best-block invariant. -/
lemma extendLeftFuel_inv {a b : List Str} {alo ahi blo bhi : Nat} :
    ∀ (fuel : Nat) (best : Nat × Nat × Nat),
      BestInv a b alo ahi blo bhi best →
      BestInv a b alo ahi blo bhi (extendLeftFuel a b alo blo fuel best) := by
  intro fuel
  induction fuel with
  | zero => intro best hb; exact hb
  | succ fuel ih =>
    intro best hb
    obtain ⟨bi, bj, bs⟩ := best
    rw [extendLeftFuel]
    split
    · rename_i hc
      obtain ⟨hb1, hb2, hb3, hb4, hb5⟩ := hb
      apply ih
      refine ⟨?_, ?_, ?_, ?_, ?_⟩
      · show alo ≤ bi - 1
        omega
      · show blo ≤ bj - 1
        omega
      · show bi - 1 + (bs + 1) ≤ ahi
        simp only at hb3
        omega
      · show bj - 1 + (bs + 1) ≤ bhi
        simp only at hb4
        omega
      · show ∀ t, t < bs + 1 → a.getD (bi - 1 + t) [] = b.getD (bj - 1 + t) []
        intro t ht
        cases t with
        | zero => simpa using hc.2.2
        | succ u =>
          have e1 : bi - 1 + (u + 1) = bi + u := by omega
          have e2 : bj - 1 + (u + 1) = bj + u := by omega
          rw [e1, e2]
          exact hb5 u (by simp only at ht ⊢; omega)
    · exact hb

/-- The rightward extension loop preserves the best-block invariant. -/
lemma extendRightFuel_inv {a b : List Str} {alo ahi blo bhi : Nat} :
    ∀ (fuel : Nat) (best : Nat × Nat × Nat),
      alo ≤ best.1 → blo ≤ best.2.1 →
      BestInv a b alo ahi blo bhi best →
      BestInv a b alo ahi blo bhi (extendRightFuel a b ahi bhi fuel best) := by
  intro fuel
  induction fuel with
  | zero => intro best _ _ hb; exact hb
  | succ fuel ih =>
    intro best h1 h2 hb
    obtain ⟨bi, bj, bs⟩ := best
    rw [extendRightFuel]
    split
    · rename_i hc
      obtain ⟨hb1, hb2, hb3, hb4, hb5⟩ := hb
      apply ih (bi, bj, bs + 1) (by simpa using h1) (by simpa using h2)
      refine ⟨by simpa using h1, by simpa using h2, ?_, ?_, ?_⟩
      · show bi + (bs + 1) ≤ ahi
        omega
      · show bj + (bs + 1) ≤ bhi
        omega
      · show ∀ t, t < bs + 1 → a.getD (bi + t) [] = b.getD (bj + t) []
        intro t ht
        by_cases hts : t = bs
        · subst hts
          exact hc.2.2
        · exact hb5 t (by simp only at ht ⊢; omega)
    · exact hb

/-- `find_longest_match` returns a block inside the search rectangle whose
two slices agree pointwise. -/
lemma flm_spec (aj : Bool) (a b : List Str) (alo ahi blo bhi : Nat)
    (h1 : alo ≤ ahi) (h2 : blo ≤ bhi) :
    BestInv a b alo ahi blo bhi (find_longest_match (b2j aj b) a b alo ahi blo bhi) := by
  rw [find_longest_match_eq, drop_range]
  have hrows : BestInv a b alo ahi blo bhi
      (flmRows (b2j aj b) a blo bhi (List.range' alo (ahi - alo)) (fun _ => 0) (alo, blo, 0)) := by
    apply flmRows_inv (ahi - alo) alo _ _ (by omega) (by omega)
    · exact fun j => ⟨by simp, by simp, by simp, by simp⟩
    · exact ⟨by simp, by simp, by simpa using h1, by simpa using h2, by simp⟩
  have hleft : BestInv a b alo ahi blo bhi
      (extendLeftFuel a b alo blo
        (flmRows (b2j aj b) a blo bhi (List.range' alo (ahi - alo)) (fun _ => 0) (alo, blo, 0)).1
        (flmRows (b2j aj b) a blo bhi (List.range' alo (ahi - alo)) (fun _ => 0) (alo, blo, 0))) :=
    extendLeftFuel_inv _ _ hrows
  exact extendRightFuel_inv _ _ hleft.1 hleft.2.1 hleft

/-! ### Structure of the matching blocks -/

lemma blocksChain_mono_lower {ahi bhi ci cj ci' cj' : Nat} {l : List (Nat × Nat × Nat)}
    (h : BlocksChain ahi bhi ci cj l) (h1 : ci' ≤ ci) (h2 : cj' ≤ cj) :
    BlocksChain ahi bhi ci' cj' l := by
  cases l with
  | nil => trivial
  | cons blk rest =>
    obtain ⟨i, j, k⟩ := blk
    obtain ⟨g1, g2, g3, g4, g5, g6⟩ := h
    exact ⟨by omega, by omega, g3, g4, g5, g6⟩

lemma blocksChain_mono_upper {ahi bhi ahi' bhi' : Nat} {l : List (Nat × Nat × Nat)} :
    ∀ {ci cj}, BlocksChain ahi bhi ci cj l → ahi ≤ ahi' → bhi ≤ bhi' →
      BlocksChain ahi' bhi' ci cj l := by
  induction l with
  | nil => intro ci cj _ _ _; trivial
  | cons blk rest ih =>
    intro ci cj h h1 h2
    obtain ⟨i, j, k⟩ := blk
    obtain ⟨g1, g2, g3, g4, g5, g6⟩ := h
    exact ⟨g1, g2, by omega, by omega, g5, ih g6 h1 h2⟩

lemma blocksChain_append {ahi bhi u v : Nat} {l₂ : List (Nat × Nat × Nat)} :
    ∀ {ci cj} (l₁ : List (Nat × Nat × Nat)),
      BlocksChain u v ci cj l₁ → BlocksChain ahi bhi u v l₂ →
      ci ≤ u → cj ≤ v → u ≤ ahi → v ≤ bhi →
      BlocksChain ahi bhi ci cj (l₁ ++ l₂) := by
  intro ci cj l₁
  induction l₁ generalizing ci cj with
  | nil =>
    intro _ h2 hc1 hc2 _ _
    exact blocksChain_mono_lower h2 hc1 hc2
  | cons blk rest ih =>
    intro h1 h2 hc1 hc2 hu hv
    obtain ⟨i, j, k⟩ := blk
    obtain ⟨g1, g2, g3, g4, g5, g6⟩ := h1
    exact ⟨g1, g2, by omega, by omega, g5, ih g6 h2 (by omega) (by omega) hu hv⟩

/-- The collected matching blocks are an ordered chain of nonempty blocks
inside the search rectangle, each pairing pointwise-equal slices. -/
lemma matchingBlocksFuel_spec (aj : Bool) (a b : List Str) :
    ∀ (fuel alo ahi blo bhi : Nat), alo ≤ ahi → blo ≤ bhi →
      BlocksChain ahi bhi alo blo (matchingBlocksFuel (b2j aj b) a b fuel alo ahi blo bhi)
        ∧ BlocksValid a b (matchingBlocksFuel (b2j aj b) a b fuel alo ahi blo bhi) := by
  intro fuel
  induction fuel with
  | zero =>
    intro alo ahi blo bhi _ _
    rw [show matchingBlocksFuel (b2j aj b) a b 0 alo ahi blo bhi = [] from rfl]
    exact ⟨trivial, by intro blk hblk; simp at hblk⟩
  | succ fuel ih =>
    intro alo ahi blo bhi h1 h2
    rw [matchingBlocksFuel_succ]
    obtain ⟨f1, f2, f3, f4, f5⟩ := flm_spec aj a b alo ahi blo bhi h1 h2
    split
    · exact ⟨trivial, by intro blk hblk; simp at hblk⟩
    · rename_i hk
      set r := find_longest_match (b2j aj b) a b alo ahi blo bhi with hr
      obtain ⟨chL, vaL⟩ := ih alo r.1 blo r.2.1 f1 f2
      obtain ⟨chR, vaR⟩ := ih (r.1 + r.2.2) ahi (r.2.1 + r.2.2) bhi f3 f4
      constructor
      · exact blocksChain_append _ chL ⟨le_refl _, le_refl _, f3, f4, by omega, chR⟩
          f1 f2 (by omega) (by omega)
      · intro blk hblk
        rw [List.mem_append] at hblk
        rcases hblk with hblk | hblk
        · exact vaL blk hblk
        · rw [List.mem_cons] at hblk
          rcases hblk with hblk | hblk
          · subst hblk
            exact f5
          · exact vaR blk hblk

/-- Merging adjacent blocks preserves the chain structure and validity. -/
lemma mergeBlocks_spec {ahi bhi : Nat} {a b : List Str} :
    ∀ (bl : List (Nat × Nat × Nat)) (i1 j1 k1 li lj : Nat),
      li ≤ i1 → lj ≤ j1 → i1 + k1 ≤ ahi → j1 + k1 ≤ bhi →
      BlocksChain ahi bhi (i1 + k1) (j1 + k1) bl →
      (∀ t, t < k1 → a.getD (i1 + t) [] = b.getD (j1 + t) []) →
      BlocksValid a b bl →
      BlocksChain ahi bhi li lj (mergeBlocks i1 j1 k1 bl)
        ∧ BlocksValid a b (mergeBlocks i1 j1 k1 bl) := by
  intro bl
  induction bl with
  | nil =>
    intro i1 j1 k1 li lj hl1 hl2 hb1 hb2 _ hval _
    rw [mergeBlocks]
    split
    · exact ⟨trivial, by intro blk hblk; simp at hblk⟩
    · rename_i hk1
      constructor
      · exact ⟨hl1, hl2, hb1, hb2, by omega, trivial⟩
      · intro blk hblk
        rw [List.mem_singleton] at hblk
        subst hblk
        exact hval
  | cons blk2 rest ih =>
    intro i1 j1 k1 li lj hl1 hl2 hb1 hb2 hchain hval hvrest
    obtain ⟨i2, j2, k2⟩ := blk2
    obtain ⟨g1, g2, g3, g4, g5, g6⟩ := hchain
    have hval2 : ∀ t, t < k2 → a.getD (i2 + t) [] = b.getD (j2 + t) [] :=
      hvrest (i2, j2, k2) (by simp)
    have hvrest' : BlocksValid a b rest := fun blk hblk => hvrest blk (by simp [hblk])
    rw [mergeBlocks]
    split
    · rename_i hadj
      apply ih (i1) (j1) (k1 + k2) li lj hl1 hl2 (by omega) (by omega)
      · have e1 : i1 + (k1 + k2) = i2 + k2 := by omega
        have e2 : j1 + (k1 + k2) = j2 + k2 := by omega
        rw [e1, e2]
        exact g6
      · intro t ht
        by_cases htk : t < k1
        · exact hval t htk
        · have e1 : i1 + t = i2 + (t - k1) := by omega
          have e2 : j1 + t = j2 + (t - k1) := by omega
          rw [e1, e2]
          exact hval2 (t - k1) (by omega)
      · exact hvrest'
    · rename_i hadj
      split
      · rename_i hk1
        apply ih i2 j2 k2 li lj (by omega) (by omega) g3 g4 g6 hval2 hvrest'
      · rename_i hk1
        have hrest := ih i2 j2 k2 (i1 + k1) (j1 + k1) g1 g2 g3 g4 g6 hval2 hvrest'
        constructor
        · exact ⟨hl1, hl2, hb1, hb2, by omega, hrest.1⟩
        · intro blk hblk
          rw [List.mem_cons] at hblk
          rcases hblk with hblk | hblk
          · subst hblk
            exact hval
          · exact hrest.2 blk hblk

/-! ### Structure of the opcodes -/

/-- Converting a chain of matching blocks (followed by the terminal
sentinel) into opcodes yields a covering opcode chain whose `equal` spans
pair pointwise-equal slices. -/
lemma opcodesOf_spec {la lb : Nat} {a b : List Str} :
    ∀ (bl : List (Nat × Nat × Nat)) (i j : Nat),
      BlocksChain la lb i j bl → BlocksValid a b bl → i ≤ la → j ≤ lb →
      OpsChain la lb i j (opcodesOf i j (bl ++ [(la, lb, 0)]))
        ∧ EqOpsValid a b (opcodesOf i j (bl ++ [(la, lb, 0)])) := by
  intro bl
  induction bl with
  | nil =>
    intro i j _ _ hi hj
    rw [List.nil_append, opcodesOf, opcodesOf]
    rw [if_pos rfl]
    constructor
    · by_cases h1 : i < la <;> by_cases h2 : j < lb
      · rw [if_pos ⟨h1, h2⟩]
        exact ⟨rfl, rfl, le_refl _, le_refl _, ⟨h1, h2⟩, by omega, by omega⟩
      · rw [if_neg (show ¬(i < la ∧ j < lb) by omega), if_pos h1]
        exact ⟨rfl, rfl, le_refl _, le_refl _, ⟨h1, by omega⟩, by omega, by omega⟩
      · rw [if_neg (show ¬(i < la ∧ j < lb) by omega), if_neg h1, if_pos h2]
        exact ⟨rfl, rfl, le_refl _, le_refl _, ⟨by omega, h2⟩, by omega, by omega⟩
      · rw [if_neg (show ¬(i < la ∧ j < lb) by omega), if_neg h1, if_neg h2]
        exact ⟨by omega, by omega⟩
    · intro op hop
      by_cases h1 : i < la <;> by_cases h2 : j < lb
      · rw [if_pos ⟨h1, h2⟩] at hop
        simp at hop
        rw [hop]
        intro hc
        exact Tag.noConfusion hc
      · rw [if_neg (show ¬(i < la ∧ j < lb) by omega), if_pos h1] at hop
        simp at hop
        rw [hop]
        intro hc
        exact Tag.noConfusion hc
      · rw [if_neg (show ¬(i < la ∧ j < lb) by omega), if_neg h1, if_pos h2] at hop
        simp at hop
        rw [hop]
        intro hc
        exact Tag.noConfusion hc
      · rw [if_neg (show ¬(i < la ∧ j < lb) by omega), if_neg h1, if_neg h2] at hop
        simp at hop
  | cons blk rest ih =>
    intro i j hchain hvalid hi hj
    obtain ⟨bi, bj2, k⟩ := blk
    obtain ⟨g1, g2, g3, g4, g5, g6⟩ := hchain
    have hvhead : ∀ t, t < k → a.getD (bi + t) [] = b.getD (bj2 + t) [] :=
      hvalid (bi, bj2, k) (by simp)
    have hvrest : BlocksValid a b rest := fun x hx => hvalid x (by simp [hx])
    obtain ⟨ihc, ihv⟩ := ih (bi + k) (bj2 + k) g6 hvrest g3 g4
    rw [List.cons_append, opcodesOf, if_neg (show ¬(k = 0) by omega)]
    have heqchain :
        OpsChain la lb bi bj2
          ((Tag.equal, bi, bi + k, bj2, bj2 + k)
            :: opcodesOf (bi + k) (bj2 + k) (rest ++ [(la, lb, 0)])) :=
      ⟨rfl, rfl, g3, g4, ⟨by omega, by omega, by omega⟩, ihc⟩
    have heqvalid :
        EqOpsValid a b
          ((Tag.equal, bi, bi + k, bj2, bj2 + k)
            :: opcodesOf (bi + k) (bj2 + k) (rest ++ [(la, lb, 0)])) := by
      intro op hop
      rw [List.mem_cons] at hop
      rcases hop with hop | hop
      · subst hop
        intro _ t ht
        simp only at ht ⊢
        exact hvhead t (by omega)
      · exact ihv op hop
    constructor
    · by_cases h1 : i < bi <;> by_cases h2 : j < bj2
      · rw [if_pos ⟨h1, h2⟩]
        exact ⟨rfl, rfl, by omega, by omega, ⟨h1, h2⟩, heqchain⟩
      · rw [if_neg (show ¬(i < bi ∧ j < bj2) by omega), if_pos h1]
        exact ⟨rfl, rfl, by omega, by omega, ⟨h1, by omega⟩, heqchain⟩
      · rw [if_neg (show ¬(i < bi ∧ j < bj2) by omega), if_neg h1, if_pos h2]
        exact ⟨rfl, rfl, by omega, by omega, ⟨by omega, h2⟩, heqchain⟩
      · rw [if_neg (show ¬(i < bi ∧ j < bj2) by omega), if_neg h1, if_neg h2]
        rw [List.nil_append]
        have hbi : bi = i := by omega
        have hbj : bj2 = j := by omega
        subst hbi
        subst hbj
        exact heqchain
    · intro op hop
      rw [List.mem_append] at hop
      rcases hop with hop | hop
      · rw [List.mem_append] at hop
        rcases hop with hop | hop
        · by_cases h1 : i < bi <;> by_cases h2 : j < bj2
          · rw [if_pos ⟨h1, h2⟩] at hop
            simp at hop
            rw [hop]
            intro hc
            exact Tag.noConfusion hc
          · rw [if_neg (show ¬(i < bi ∧ j < bj2) by omega), if_pos h1] at hop
            simp at hop
            rw [hop]
            intro hc
            exact Tag.noConfusion hc
          · rw [if_neg (show ¬(i < bi ∧ j < bj2) by omega), if_neg h1, if_pos h2] at hop
            simp at hop
            rw [hop]
            intro hc
            exact Tag.noConfusion hc
          · rw [if_neg (show ¬(i < bi ∧ j < bj2) by omega), if_neg h1, if_neg h2] at hop
            simp at hop
        · rw [List.mem_singleton] at hop
          exact heqvalid op (by rw [hop]; exact List.mem_cons_self _ _)
      · exact heqvalid op (List.mem_cons_of_mem _ hop)

/-- The opcodes of the matcher form a covering chain with valid tags, and
every `equal` opcode pairs pointwise-equal slices. -/
lemma get_opcodes_spec (aj : Bool) (a b : List Str) :
    OpsChain a.length b.length 0 0 (get_opcodes aj a b)
      ∧ EqOpsValid a b (get_opcodes aj a b) := by
  rw [get_opcodes, get_matching_blocks]
  obtain ⟨hc, hv⟩ := matchingBlocksFuel_spec aj a b (a.length + b.length + 1)
    0 a.length 0 b.length (by omega) (by omega)
  obtain ⟨hc2, hv2⟩ := mergeBlocks_spec _ 0 0 0 0 0 (le_refl _) (le_refl _)
    (by omega) (by omega) hc (fun t ht => absurd ht (by omega)) hv
  exact opcodesOf_spec _ 0 0 hc2 hv2 (by omega) (by omega)

/-! ### Consequences of the covering structure -/

lemma range'_map_congr {a b : List Str} :
    ∀ (sz i j : Nat), (∀ t, t < sz → a.getD (i + t) [] = b.getD (j + t) []) →
      (List.range' i sz).map (fun x => a.getD x []) =
        (List.range' j sz).map (fun x => b.getD x []) := by
  intro sz
  induction sz with
  | zero => intro i j _; rfl
  | succ sz ih =>
    intro i j h
    rw [List.range'_succ, List.range'_succ, List.map_cons, List.map_cons]
    congr 1
    · simpa using h 0 (by omega)
    · apply ih
      intro t ht
      have e1 : i + 1 + t = i + (t + 1) := by omega
      have e2 : j + 1 + t = j + (t + 1) := by omega
      rw [e1, e2]
      exact h (t + 1) (by omega)

lemma map_getD_self (a : List Str) :
    (List.range' 0 a.length).map (fun x => a.getD x []) = a := by
  apply List.ext_getElem
  · simp
  · intro n h1 h2
    have hn : n < a.length := by simpa using h1
    simp [List.getElem?_eq_getElem hn]

/-- If every opcode of a covering chain is `equal` and pairs equal slices,
the two remaining suffixes agree. -/
lemma opsChain_all_equal {a b : List Str} :
    ∀ (ops : List Opc) (i j : Nat),
      OpsChain a.length b.length i j ops → EqOpsValid a b ops →
      (∀ op ∈ ops, op.1 = Tag.equal) →
      (List.range' i (a.length - i)).map (fun x => a.getD x []) =
        (List.range' j (b.length - j)).map (fun x => b.getD x []) := by
  intro ops
  induction ops with
  | nil =>
    intro i j hch _ _
    obtain ⟨h1, h2⟩ := hch
    subst h1
    subst h2
    simp
  | cons op rest ih =>
    intro i j hch hval hall
    obtain ⟨tag, i1, i2, j1, j2⟩ := op
    have htag : tag = Tag.equal := hall _ (List.mem_cons_self _ _)
    subst htag
    obtain ⟨e1, e2, hle1, hle2, hm, hrest⟩ := hch
    obtain ⟨m1, m2, m3⟩ := hm
    have hvop := hval _ (List.mem_cons_self _ _) rfl
    simp only at hvop
    rw [e1, e2] at hvop
    have hsplit1 : a.length - i = (a.length - i2) + (i2 - i) := by omega
    have hsplit2 : b.length - j = (b.length - j2) + (j2 - j) := by omega
    rw [hsplit1, hsplit2, ← List.range'_append, ← List.range'_append,
      List.map_append, List.map_append]
    simp only [one_mul]
    have hi2 : i + (i2 - i) = i2 := by omega
    have hj2 : j + (j2 - j) = j2 := by omega
    rw [hi2, hj2]
    congr 1
    · rw [← m3]
      exact range'_map_congr (i2 - i) i j (fun t ht => hvop t ht)
    · exact ih i2 j2 hrest (fun x hx => hval x (List.mem_cons_of_mem _ hx))
        (fun x hx => hall x (List.mem_cons_of_mem _ hx))

/-- If all opcodes are `equal`, the two compared sequences are equal. -/
lemma all_equal_imp_eq {aj : Bool} {a b : List Str}
    (h : ∀ op ∈ get_opcodes aj a b, op.1 = Tag.equal) : a = b := by
  obtain ⟨hc, hv⟩ := get_opcodes_spec aj a b
  have hseg := opsChain_all_equal _ 0 0 hc hv h
  rw [Nat.sub_zero, Nat.sub_zero, map_getD_self, map_getD_self] at hseg
  exact hseg

/-- Comparing different sequences yields at least one non-equal opcode. -/
lemma exists_ne_equal_of_ne {aj : Bool} {a b : List Str} (h : a ≠ b) :
    ∃ op ∈ get_opcodes aj a b, op.1 ≠ Tag.equal := by
  by_contra hc
  push_neg at hc
  exact h (all_equal_imp_eq hc)

/-- Range and tag facts for every member of a covering opcode chain. -/
lemma opsChain_mem_facts {la lb : Nat} :
    ∀ (ops : List Opc) (i j : Nat), OpsChain la lb i j ops →
      ∀ tag i1 i2 j1 j2, (tag, i1, i2, j1, j2) ∈ ops →
        i2 ≤ la ∧ j2 ≤ lb ∧
        (tag = Tag.insert → i1 = i2 ∧ j1 < j2) ∧
        (tag = Tag.delete → i1 < i2 ∧ j1 = j2) ∧
        (tag = Tag.replace → i1 < i2 ∧ j1 < j2) ∧
        (tag = Tag.equal → i1 < i2 ∧ j1 < j2 ∧ i2 - i1 = j2 - j1) := by
  intro ops
  induction ops with
  | nil =>
    intro i j _ tag i1 i2 j1 j2 h
    simp at h
  | cons op rest ih =>
    intro i j hch tag i1 i2 j1 j2 hmem
    obtain ⟨t0, a1, a2, b1, b2⟩ := op
    obtain ⟨e1, e2, hle1, hle2, hm, hrest⟩ := hch
    rw [List.mem_cons] at hmem
    rcases hmem with hmem | hmem
    · simp only [Prod.mk.injEq] at hmem
      obtain ⟨rfl, rfl, rfl, rfl, rfl⟩ := hmem
      subst e1
      subst e2
      cases tag with
      | equal =>
        exact ⟨hle1, hle2, fun hc => absurd hc (by decide), fun hc => absurd hc (by decide),
          fun hc => absurd hc (by decide), fun _ => hm⟩
      | insert =>
        exact ⟨hle1, hle2, fun _ => hm, fun hc => absurd hc (by decide),
          fun hc => absurd hc (by decide), fun hc => absurd hc (by decide)⟩
      | delete =>
        exact ⟨hle1, hle2, fun hc => absurd hc (by decide), fun _ => hm,
          fun hc => absurd hc (by decide), fun hc => absurd hc (by decide)⟩
      | replace =>
        exact ⟨hle1, hle2, fun hc => absurd hc (by decide), fun hc => absurd hc (by decide),
          fun _ => hm, fun hc => absurd hc (by decide)⟩
    · exact ih a2 b2 hrest tag i1 i2 j1 j2 hmem

/-- C3 counterexample: for the line lists 1,2,3,1,2 and 1,2,1,2,3 the
greedy matcher keeps only 3 lines in Equal spans although the longest
common subsequence of the normalized sequences has 4 lines. -/
theorem C3_counterexample :
    ¬ (equalSpanTotal (get_opcodes false
          ([['1'], ['2'], ['3'], ['1'], ['2']].map normalize_line)
          ([['1'], ['2'], ['1'], ['2'], ['3']].map normalize_line))
        = lcsLen ([['1'], ['2'], ['3'], ['1'], ['2']].map normalize_line)
            ([['1'], ['2'], ['1'], ['2'], ['3']].map normalize_line)) := by
  decide

/-- C3 (amended): for every pair of line lists, the alignment computed over
the normalized sequences is an ordered covering chain of
Equal/Insert/Delete/Replace spans — contiguous, exhausting both sequences,
with each tag correctly describing its two ranges and Equal spans pairing
only lines that are equal after normalization — but the total number of
lines inside Equal spans is the one found by the greedy
longest-matching-block strategy, which can be smaller than the length of a
longest common subsequence. -/
theorem C3_amended_alignment_structure (lines1 lines2 : List Str) :
    OpsChain lines1.length lines2.length 0 0
        (get_opcodes false (lines1.map normalize_line) (lines2.map normalize_line))
      ∧ EqOpsValid (lines1.map normalize_line) (lines2.map normalize_line)
        (get_opcodes false (lines1.map normalize_line) (lines2.map normalize_line)) := by
  have h := get_opcodes_spec false (lines1.map normalize_line) (lines2.map normalize_line)
  rw [List.length_map, List.length_map] at h
  exact h

/-! ### Markers in annotated output -/

lemma slice_ne_nil {xs : List Str} {j1 j2 : Nat} (h1 : j1 < j2) (h2 : j2 ≤ xs.length) :
    ∃ tok rest, slice xs j1 j2 = tok :: rest := by
  have hlen : (slice xs j1 j2).length = min (j2 - j1) (xs.length - j1) := by
    simp [slice]
  cases hsl : slice xs j1 j2 with
  | nil =>
    rw [hsl] at hlen
    simp at hlen
    omega
  | cons t r => exact ⟨t, r, rfl⟩

/-- If the token sequences differ, the annotated line carries at least one
addition or removal marker. -/
lemma annotate_marker {l1 l2 : Str} (hne : tokenize l1 ≠ tokenize l2) :
    List.IsInfix ['+', '+'] (annotate_changes l1 l2)
      ∨ List.IsInfix ['-', '-'] (annotate_changes l1 l2) := by
  obtain ⟨hc, _⟩ := get_opcodes_spec true (tokenize l1) (tokenize l2)
  obtain ⟨op, hop, htag⟩ := @exists_ne_equal_of_ne true _ _ hne
  obtain ⟨tag, i1, i2, j1, j2⟩ := op
  obtain ⟨hf1, hf2, hf3, hf4, hf5, _⟩ :=
    opsChain_mem_facts _ 0 0 hc tag i1 i2 j1 j2 hop
  have hmemrender :
      renderOpcode (tokenize l1) (tokenize l2) (tag, i1, i2, j1, j2)
        ∈ (get_opcodes true (tokenize l1) (tokenize l2)).map
            (renderOpcode (tokenize l1) (tokenize l2)) :=
    List.mem_map_of_mem _ hop
  cases tag with
  | equal => exact absurd rfl htag
  | insert =>
    obtain ⟨_, hj⟩ := hf3 rfl
    obtain ⟨tok, rest, hslice⟩ := slice_ne_nil hj hf2
    left
    have h1 : wrapAdd tok
        ∈ ((get_opcodes true (tokenize l1) (tokenize l2)).map
            (renderOpcode (tokenize l1) (tokenize l2))).flatten := by
      rw [List.mem_flatten]
      refine ⟨_, hmemrender, ?_⟩
      rw [renderOpcode, hslice]
      exact List.mem_map_of_mem _ (List.mem_cons_self _ _)
    have h2 := List.infix_of_mem_flatten h1
    have h3 : List.IsInfix ['+', '+'] (wrapAdd tok) :=
      ⟨[], tok ++ ['+', '+'], by simp [wrapAdd]⟩
    exact h3.trans h2
  | delete =>
    obtain ⟨hi, _⟩ := hf4 rfl
    obtain ⟨tok, rest, hslice⟩ := slice_ne_nil hi hf1
    right
    have h1 : wrapDel tok
        ∈ ((get_opcodes true (tokenize l1) (tokenize l2)).map
            (renderOpcode (tokenize l1) (tokenize l2))).flatten := by
      rw [List.mem_flatten]
      refine ⟨_, hmemrender, ?_⟩
      rw [renderOpcode, hslice]
      exact List.mem_map_of_mem _ (List.mem_cons_self _ _)
    have h2 := List.infix_of_mem_flatten h1
    have h3 : List.IsInfix ['-', '-'] (wrapDel tok) :=
      ⟨[], tok ++ ['-', '-'], by simp [wrapDel]⟩
    exact h3.trans h2
  | replace =>
    obtain ⟨hi, _⟩ := hf5 rfl
    obtain ⟨tok, rest, hslice⟩ := slice_ne_nil hi hf1
    right
    have h1 : wrapDel tok
        ∈ ((get_opcodes true (tokenize l1) (tokenize l2)).map
            (renderOpcode (tokenize l1) (tokenize l2))).flatten := by
      rw [List.mem_flatten]
      refine ⟨_, hmemrender, ?_⟩
      rw [renderOpcode, hslice]
      exact List.mem_append_left _ (List.mem_map_of_mem _ (List.mem_cons_self _ _))
    have h2 := List.infix_of_mem_flatten h1
    have h3 : List.IsInfix ['-', '-'] (wrapDel tok) :=
      ⟨[], tok ++ ['-', '-'], by simp [wrapDel]⟩
    exact h3.trans h2

/-- C5: annotate_changes aligns the raw token sequences and performs no
normalization-equality short-circuit — two lines that are equal after
normalization but differ as raw strings still receive at least one
addition or removal marker. -/
theorem C5_annotate_raw_tokens (line1 line2 : Str)
    (_hnorm : normalize_line line1 = normalize_line line2) (hne : line1 ≠ line2) :
    List.IsInfix ['+', '+'] (annotate_changes line1 line2)
      ∨ List.IsInfix ['-', '-'] (annotate_changes line1 line2) := by
  apply annotate_marker
  intro hc
  apply hne
  rw [← tokenize_flatten line1, ← tokenize_flatten line2, hc]

/-- Witness for C5 at the lines "d. H" and "d.  H": normalized-equal, raw
different, and the annotation carries a marker. -/
theorem C5_witness :
    normalize_line "d. H".toList = normalize_line "d.  H".toList
      ∧ "d. H".toList ≠ "d.  H".toList
      ∧ (List.IsInfix ['+', '+'] (annotate_changes "d. H".toList "d.  H".toList)
          ∨ List.IsInfix ['-', '-'] (annotate_changes "d. H".toList "d.  H".toList)) :=
  ⟨by decide, by decide, C5_annotate_raw_tokens _ _ (by decide) (by decide)⟩

/-! ### Nonempty output for non-equal opcodes -/

lemma opcodeOutput_ne_nil {lines1 lines2 : List Str} {tag : Tag} {i1 i2 j1 j2 : Nat}
    (htag : tag ≠ Tag.equal)
    (hins : tag = Tag.insert → j1 < j2) (hdel : tag = Tag.delete → i1 < i2)
    (hrep : tag = Tag.replace → i1 < i2 ∧ j1 < j2) :
    opcodeOutput lines1 lines2 (tag, i1, i2, j1, j2) ≠ [] := by
  cases tag with
  | equal => exact absurd rfl htag
  | insert =>
    have hj := hins rfl
    rw [opcodeOutput]
    have e : j2 - j1 = (j2 - j1 - 1) + 1 := by omega
    rw [e, List.range'_succ]
    simp [insBlock]
  | delete =>
    have hi := hdel rfl
    rw [opcodeOutput]
    have e : i2 - i1 = (i2 - i1 - 1) + 1 := by omega
    rw [e, List.range'_succ]
    simp [delBlock]
  | replace =>
    obtain ⟨hi, hj⟩ := hrep rfl
    rw [opcodeOutput]
    have e1 : i2 - i1 = (i2 - i1 - 1) + 1 := by omega
    have e2 : j2 - j1 = (j2 - j1 - 1) + 1 := by omega
    rw [e1, e2, List.range'_succ, List.range'_succ]
    simp [pairBlock]

lemma flatMap_opcodeOutput_ne_nil {lines1 lines2 : List Str} {la lb : Nat}
    (ops : List Opc) (i j : Nat) (hch : OpsChain la lb i j ops)
    (hex : ∃ op ∈ ops, op.1 ≠ Tag.equal) :
    ops.flatMap (opcodeOutput lines1 lines2) ≠ [] := by
  obtain ⟨op, hop, htag⟩ := hex
  obtain ⟨tag, i1, i2, j1, j2⟩ := op
  obtain ⟨_, _, hf3, hf4, hf5, _⟩ := opsChain_mem_facts _ i j hch tag i1 i2 j1 j2 hop
  intro hnil
  rw [List.flatMap_eq_nil_iff] at hnil
  exact opcodeOutput_ne_nil htag (fun h => (hf3 h).2) (fun h => (hf4 h).1)
    (fun h => hf5 h) (hnil _ hop)

lemma opsChain_all_equal_len {la lb : Nat} :
    ∀ (ops : List Opc) (i j : Nat), OpsChain la lb i j ops →
      (∀ op ∈ ops, op.1 = Tag.equal) → la - i = lb - j := by
  intro ops
  induction ops with
  | nil =>
    intro i j hch _
    obtain ⟨h1, h2⟩ := hch
    omega
  | cons op rest ih =>
    intro i j hch hall
    obtain ⟨tag, i1, i2, j1, j2⟩ := op
    have htag : tag = Tag.equal := hall _ (List.mem_cons_self _ _)
    subst htag
    obtain ⟨e1, e2, hle1, hle2, hm, hrest⟩ := hch
    obtain ⟨m1, m2, m3⟩ := hm
    have := ih i2 j2 hrest (fun x hx => hall x (List.mem_cons_of_mem _ hx))
    omega

/-- Comparing line lists of different lengths always yields some output. -/
lemma diff_ne_nil_of_len_ne {lines1 lines2 : List Str}
    (h : lines1.length ≠ lines2.length) : diff_lines lines1 lines2 ≠ [] := by
  rw [diff_lines]
  obtain ⟨hc, _⟩ :=
    get_opcodes_spec false (lines1.map normalize_line) (lines2.map normalize_line)
  apply flatMap_opcodeOutput_ne_nil _ 0 0 hc
  by_contra hall
  push_neg at hall
  have hlen := opsChain_all_equal_len _ 0 0 hc hall
  rw [List.length_map, List.length_map] at hlen
  omega

lemma insertAt_length (p : Nat) (x : Str) (l : List Str) (hp : p ≤ l.length) :
    (insertAt p x l).length = l.length + 1 := by
  simp [insertAt]
  omega

/-- C2 counterexample: inserting the single line C in the middle of the
list A,B,A,B,A produces five difference blocks, not one. -/
theorem C2_counterexample :
    ¬ (numBlocks (diff_lines
          [['A'], ['B'], ['A'], ['B'], ['A']]
          (insertAt 2 ['C'] [['A'], ['B'], ['A'], ['B'], ['A']])) = 1) := by
  decide

/-- C2 (amended): inserting one line in the middle of a list always
produces at least one difference block, but when neighbouring lines repeat
the greedy aligner may produce several blocks that also echo lines of L; in
the spec scenario the output is exactly one pure-insertion block for
"Line 2" and neither "Line 1" nor "Line 3" occurs in any output line. -/
theorem C2_amended_insertion (L : List Str) (x : Str) (p : Nat)
    (_hp1 : 0 < p) (hp2 : p < L.length) :
    diff_lines L (insertAt p x L) ≠ []
      ∧ diff_lines ["Line 1".toList, "Line 3".toList]
          ["Line 1".toList, "Line 2".toList, "Line 3".toList]
        = [['-', '-', '-'], "File A: ".toList, "File B: Line 2".toList, [],
            "++Line 2++".toList, []]
      ∧ numBlocks (diff_lines ["Line 1".toList, "Line 3".toList]
          ["Line 1".toList, "Line 2".toList, "Line 3".toList]) = 1
      ∧ ∀ out ∈ diff_lines ["Line 1".toList, "Line 3".toList]
          ["Line 1".toList, "Line 2".toList, "Line 3".toList],
          ¬ List.IsInfix "Line 1".toList out ∧ ¬ List.IsInfix "Line 3".toList out := by
  refine ⟨?_, by decide, by decide, by decide⟩
  apply diff_ne_nil_of_len_ne
  have hlen := insertAt_length p x L (by omega)
  omega

/-- Witness for C2 at the spec scenario: inserting "Line 2" at position 1
of ["Line 1", "Line 3"]. -/
theorem C2_witness :
    0 < 1 ∧ 1 < (["Line 1".toList, "Line 3".toList] : List Str).length
      ∧ diff_lines ["Line 1".toList, "Line 3".toList]
          (insertAt 1 "Line 2".toList ["Line 1".toList, "Line 3".toList]) ≠ [] :=
  ⟨by decide, by decide,
    (C2_amended_insertion ["Line 1".toList, "Line 3".toList] "Line 2".toList 1
      (by decide) (by decide)).1⟩

/-! ### Replace spans pair index-by-index -/

lemma zip_range' : ∀ (a b i j : Nat),
    (List.range' i a).zip (List.range' j b)
      = (List.range (min a b)).map (fun t => (i + t, j + t)) := by
  intro a
  induction a with
  | zero => intro b i j; simp [List.range']
  | succ a ih =>
    intro b i j
    cases b with
    | zero => simp [List.range', List.range'_succ]
    | succ b =>
      rw [List.range'_succ, List.range'_succ, List.zip_cons_cons, ih]
      have hmin : min (a + 1) (b + 1) = min a b + 1 := by omega
      rw [hmin, List.range_succ_eq_map, List.map_cons, List.map_map]
      congr 1
      all_goals
        first
          | (simp; done)
          | (apply List.map_congr_left
             intro t ht
             simp only [Function.comp_apply, Nat.succ_eq_add_one, Prod.mk.injEq]
             omega)

/-- C4: for a Replace span, diff_lines pairs the two sides index-by-index
up to the shorter span length (one annotated block per pair) and then
reports every leftover line of the longer side as its own pure-deletion or
pure-insertion block, exactly as the specification describes — no line of
the span is dropped. -/
theorem C4_replace_pairing (lines1 lines2 : List Str) (i1 i2 j1 j2 : Nat) :
    opcodeOutput lines1 lines2 (Tag.replace, i1, i2, j1, j2)
      = replaceSpanSpec lines1 lines2 i1 i2 j1 j2 := by
  rw [opcodeOutput, replaceSpanSpec, zip_range']
  congr 1
  · congr 1
    · rw [List.flatMap_map, List.flatMap_def]
    · by_cases hc : j2 - j1 < i2 - i1
      · rw [if_pos hc]
        have hmin : min (i2 - i1) (j2 - j1) = j2 - j1 := by omega
        have harg : i2 - (i1 + (j2 - j1)) = i2 - i1 - (j2 - j1) := by omega
        rw [hmin, harg, List.range'_eq_map_range, List.flatMap_map, List.flatMap_def]
      · rw [if_neg hc]
        have hmin : min (i2 - i1) (j2 - j1) = i2 - i1 := by omega
        have hz : i2 - i1 - (i2 - i1) = 0 := by omega
        rw [hmin, hz]
        rfl
  · by_cases hc : i2 - i1 < j2 - j1
    · rw [if_pos hc]
      have hmin : min (i2 - i1) (j2 - j1) = i2 - i1 := by omega
      have harg : j2 - (j1 + (i2 - i1)) = j2 - j1 - (i2 - i1) := by omega
      rw [hmin, harg, List.range'_eq_map_range, List.flatMap_map, List.flatMap_def]
    · rw [if_neg hc]
      have hmin : min (i2 - i1) (j2 - j1) = j2 - j1 := by omega
      have hz : j2 - j1 - (j2 - j1) = 0 := by omega
      rw [hmin, hz]
      rfl

/-! ### Token-level rendering matches the specification -/

lemma renderOpcode_eq_markers (tokens1 tokens2 : List Str) (op : Opc) :
    renderOpcode tokens1 tokens2 op = (opMarkers tokens1 tokens2 op).map renderMarker := by
  obtain ⟨tag, i1, i2, j1, j2⟩ := op
  cases tag <;> simp [renderOpcode, opMarkers, renderMarker, Function.comp_def]

/-- C6: annotate_changes renders the token-level spans exactly as the
specification describes — Equal-span tokens unmarked, Insert-span tokens
individually wrapped as additions, Delete-span tokens individually wrapped
as removals, and a Replace span rendered as all its removals followed by
all its additions — and on "Hello World" vs "Hello Universe" the annotated
line is "Hello --World--++Universe++". -/
theorem C6_render_spans :
    (∀ line1 line2 : Str, annotate_changes line1 line2 = annotateSpec line1 line2)
      ∧ annotate_changes "Hello World".toList "Hello Universe".toList
        = "Hello --World--++Universe++".toList := by
  constructor
  · intro l1 l2
    rw [annotate_changes, annotateSpec, List.flatMap_def, List.map_flatten, List.map_map]
    congr 2
    apply List.map_congr_left
    intro op _
    exact renderOpcode_eq_markers (tokenize l1) (tokenize l2) op
  · decide

/-! ### Normalization collapses exactly the maximal whitespace runs -/

lemma normAux_true_ws {c : Char} {cs : Str} (h : isWs c = true) :
    normAux true (c :: cs) = normAux true cs := by
  rw [normAux, if_pos h, if_pos rfl]

lemma normAux_false_ws {c : Char} {cs : Str} (h : isWs c = true) :
    normAux false (c :: cs) = ' ' :: normAux true cs := by
  rw [normAux, if_pos h, if_neg (by simp)]

lemma normAux_nonws {c : Char} {cs : Str} (w : Bool) (h : isWs c = false) :
    normAux w (c :: cs) = c :: normAux false cs := by
  rw [normAux, if_neg (by simp [h])]

lemma collapseTok_ws {t : Str} (h1 : t ≠ []) (h2 : ∀ c ∈ t, isWs c = true) :
    collapseTok t = [' '] := by
  cases t with
  | nil => exact absurd rfl h1
  | cons c r =>
    rw [collapseTok, if_pos]
    exact h2 c (by simp)

lemma collapseTok_nonws {t : Str} (h2 : ∀ c ∈ t, isWs c = false) :
    collapseTok t = t := by
  cases t with
  | nil => rfl
  | cons c r =>
    rw [collapseTok, if_neg]
    rw [List.headD_cons]
    simp [h2 c (by simp)]

/-- The collapse-per-token view of a partially tokenized line agrees with
the state-passing normalization of the remaining characters. -/
lemma tokAux_collapse : ∀ (cs cur : Str) (w : Bool), cur ≠ [] → (∀ c ∈ cur, isWs c = w) →
    ((tokAux cur w cs).map collapseTok).flatten = collapseTok cur.reverse ++ normAux w cs := by
  intro cs
  induction cs with
  | nil =>
    intro cur w h1 h2
    simp [tokAux, normAux]
  | cons c cs ih =>
    intro cur w h1 h2
    have h2r : ∀ d ∈ cur.reverse, isWs d = w := by
      intro d hd
      exact h2 d (List.mem_reverse.mp hd)
    by_cases hc : isWs c = w
    · rw [tokAux, if_pos hc]
      rw [ih (c :: cur) w (by simp) ?hmem]
      case hmem =>
        intro d hd
        rcases List.mem_cons.mp hd with rfl | hd
        · exact hc
        · exact h2 d hd
      have h2r' : ∀ d ∈ (c :: cur).reverse, isWs d = w := by
        intro d hd
        rcases List.mem_cons.mp (List.mem_reverse.mp hd) with rfl | hd
        · exact hc
        · exact h2 d hd
      cases w
      · rw [collapseTok_nonws h2r, collapseTok_nonws h2r', normAux_nonws false hc]
        rw [List.reverse_cons, List.append_assoc]
        rfl
      · rw [collapseTok_ws (by simp) h2r', collapseTok_ws (by simpa using h1) h2r,
          normAux_true_ws hc]
    · rw [tokAux, if_neg hc, List.map_cons, List.flatten_cons]
      rw [ih [c] (isWs c) (by simp) (by simp), List.reverse_singleton]
      congr 1
      cases hw : isWs c
      · have hwT : w = true := by
          cases w
          · exact absurd hw hc
          · rfl
        subst hwT
        rw [normAux_nonws true hw, collapseTok_nonws (by simp [hw])]
        rfl
      · have hwF : w = false := by
          cases w
          · rfl
          · exact absurd hw hc
        subst hwF
        rw [normAux_false_ws hw, collapseTok_ws (by simp) (by simp [hw])]
        rfl

/-- `normalize_line` is exactly per-token collapse over the tokenization. -/
lemma normalize_eq_spec (s : Str) : normalize_line s = normalizeSpec s := by
  cases s with
  | nil => rfl
  | cons c cs =>
    rw [normalizeSpec, tokenize, tokAux_collapse cs [c] (isWs c) (by simp) (by simp)]
    rw [List.reverse_singleton, normalize_line]
    cases hw : isWs c
    · rw [normAux_nonws false hw, collapseTok_nonws (by simp [hw])]
      rfl
    · rw [normAux_false_ws hw, collapseTok_ws (by simp) (by simp [hw])]
      rfl

/-- After the leading whitespace run is consumed, the next emitted
character is never whitespace. -/
lemma normAux_true_head : ∀ cs : Str, isWs ((normAux true cs).headD 'a') = false := by
  intro cs
  induction cs with
  | nil => rfl
  | cons c cs ih =>
    cases hw : isWs c
    · rw [normAux_nonws true hw, List.headD_cons]
      exact hw
    · rw [normAux_true_ws hw]
      exact ih

lemma getLastD_irrel (r0 : Char) (rr : List Char) (d d' : Char) :
    (r0 :: rr).getLastD d = (r0 :: rr).getLastD d' := by
  rw [List.getLastD_cons, List.getLastD_cons]

/-- A line ending in a whitespace character normalizes to something ending
in exactly one space (the preceding character, if any, is not a space). -/
lemma normAux_trailing : ∀ (cs : Str) (c : Char), isWs c = true →
    (normAux true (cs ++ [c]) = [] ∨
      ∃ r, normAux true (cs ++ [c]) = r ++ [' '] ∧ isWs (r.getLastD 'a') = false)
    ∧ ∃ r, normAux false (cs ++ [c]) = r ++ [' '] ∧ isWs (r.getLastD 'a') = false := by
  intro cs
  induction cs with
  | nil =>
    intro c hc
    constructor
    · left
      rw [List.nil_append, normAux_true_ws hc]
      rfl
    · refine ⟨[], ?_, by decide⟩
      rw [List.nil_append, normAux_false_ws hc]
      rfl
  | cons d cs ih =>
    intro c hc
    obtain ⟨ih1, ih2⟩ := ih c hc
    by_cases hd : isWs d = true
    · constructor
      · rw [List.cons_append, normAux_true_ws hd]
        exact ih1
      · rw [List.cons_append, normAux_false_ws hd]
        rcases ih1 with h | ⟨r, hr1, hr2⟩
        · refine ⟨[], ?_, by decide⟩
          rw [h]
          rfl
        · cases r with
          | nil =>
            exfalso
            have := normAux_true_head (cs ++ [c])
            rw [hr1] at this
            simp [isWs] at this
          | cons r0 rr =>
            refine ⟨' ' :: r0 :: rr, ?_, ?_⟩
            · rw [hr1]
              rfl
            · rw [List.getLastD_cons, getLastD_irrel r0 rr ' ' 'a']
              exact hr2
    · have hd' : isWs d = false := by
        cases hdd : isWs d
        · rfl
        · exact absurd hdd hd
      obtain ⟨r, hr1, hr2⟩ := ih2
      have hcommon : ∀ w, ∃ r', normAux w (d :: (cs ++ [c])) = r' ++ [' ']
          ∧ isWs (r'.getLastD 'a') = false := by
        intro w
        rw [normAux_nonws w hd', hr1]
        refine ⟨d :: r, rfl, ?_⟩
        cases r with
        | nil =>
          rw [List.getLastD_cons]
          simpa using hd'
        | cons r0 rr =>
          rw [List.getLastD_cons, getLastD_irrel r0 rr d 'a']
          exact hr2

      constructor
      · right
        rw [List.cons_append]
        exact hcommon true
      · rw [List.cons_append]
        exact hcommon false

/-- C8: normalize_line replaces each maximal whitespace run with exactly
one space and never trims — it equals per-token collapse over the
tokenization (so no whitespace boundary is removed or introduced), a line
starting with whitespace starts with exactly one space afterwards, and a
line ending with whitespace ends with exactly one space afterwards. -/
theorem C8_normalize_collapses_runs :
    (∀ s : Str, normalize_line s = normalizeSpec s)
      ∧ (∀ (c : Char) (cs : Str), isWs c = true →
          ∃ r, normalize_line (c :: cs) = ' ' :: r ∧ isWs (r.headD 'a') = false)
      ∧ (∀ (cs : Str) (c : Char), isWs c = true →
          ∃ r, normalize_line (cs ++ [c]) = r ++ [' '] ∧ isWs (r.getLastD 'a') = false) := by
  refine ⟨normalize_eq_spec, ?_, ?_⟩
  · intro c cs hc
    refine ⟨normAux true cs, ?_, normAux_true_head cs⟩
    rw [normalize_line, normAux_false_ws hc]
  · intro cs c hc
    exact (normAux_trailing cs c hc).2

/-- Witness for C8: the characterization and the one-space boundary facts
evaluated at concrete lines with a leading resp. trailing tab. -/
theorem C8_witness :
    normalize_line "a \t b".toList = normalizeSpec "a \t b".toList
      ∧ isWs '\t' = true
      ∧ (∃ r, normalize_line ('\t' :: "x".toList) = ' ' :: r ∧ isWs (r.headD 'a') = false)
      ∧ (∃ r, normalize_line ("x ".toList ++ ['\t']) = r ++ [' ']
          ∧ isWs (r.getLastD 'a') = false) :=
  ⟨C8_normalize_collapses_runs.1 _, by decide,
    C8_normalize_collapses_runs.2.1 '\t' "x".toList (by decide),
    C8_normalize_collapses_runs.2.2 "x ".toList '\t' (by decide)⟩

/-! ### Empty line versus whitespace-only line -/

lemma normAux_true_all_ws : ∀ cs : Str, (∀ c ∈ cs, isWs c = true) → normAux true cs = [] := by
  intro cs
  induction cs with
  | nil => intro _; rfl
  | cons c cs ih =>
    intro h
    rw [normAux_true_ws (h c (by simp))]
    exact ih (fun d hd => h d (by simp [hd]))

lemma normalize_all_ws {s : Str} (h1 : s ≠ []) (h2 : ∀ c ∈ s, isWs c = true) :
    normalize_line s = [' '] := by
  cases s with
  | nil => exact absurd rfl h1
  | cons c cs =>
    rw [normalize_line, normAux_false_ws (h2 c (by simp)),
      normAux_true_all_ws cs (fun d hd => h2 d (by simp [hd]))]

/-- C10: an empty line and a nonempty whitespace-only line are never equal
after normalization — the empty line normalizes to the empty string, a
whitespace-only line to a single space — so lines_equal_norm rejects the
pair and diff_lines reports a difference block for it. -/
theorem C10_empty_vs_whitespace_only (s : Str) (h1 : s ≠ []) (h2 : ∀ c ∈ s, isWs c = true) :
    normalize_line ([] : Str) = []
      ∧ normalize_line s = [' ']
      ∧ lines_equal_norm [] s = false
      ∧ diff_lines [([] : Str)] [s] ≠ [] := by
  have hn : normalize_line s = [' '] := normalize_all_ws h1 h2
  refine ⟨rfl, hn, ?_, ?_⟩
  · have hz : normalize_line ([] : Str) = [] := rfl
    simp [lines_equal_norm, hz, hn]
  · rw [diff_lines]
    have hmap : ([([] : Str)].map normalize_line) = [[]] := rfl
    have hmap2 : ([s].map normalize_line) = [[' ']] := by
      rw [List.map_cons, List.map_nil, hn]
    rw [hmap, hmap2]
    have hops : get_opcodes false [([] : Str)] [[' ']] = [(Tag.replace, 0, 1, 0, 1)] := by
      decide
    rw [hops]
    simp [opcodeOutput, pairBlock]

/-- Witness for C10 at the whitespace-only line consisting of one space. -/
theorem C10_witness :
    ([' '] : Str) ≠ [] ∧ (∀ c ∈ ([' '] : Str), isWs c = true)
      ∧ lines_equal_norm [] [' '] = false
      ∧ diff_lines [([] : Str)] [[' ']] ≠ [] := by
  refine ⟨by decide, by decide, ?_, ?_⟩
  · exact (C10_empty_vs_whitespace_only [' '] (by decide) (by decide)).2.2.1
  · exact (C10_empty_vs_whitespace_only [' '] (by decide) (by decide)).2.2.2

end DiffUtility
